import Mathlib

/-!
rskvj: schema-driven JSON and K/V round trips over a Redis stream.

A shallow embedding of `main.go`.  Go strings are byte sequences and are
modelled as lists of byte values; unsigned machine integers are natural
numbers reduced modulo their width where the program can wrap.  Calls into
libraries (`strconv`, `fmt`, `github.com/google/uuid`, `reflect`,
`encoding/json`, the Redis client) are modelled by executable definitions
that follow the library's behaviour on the inputs the program passes.

What the program takes from its environment is a parameter of the
definitions: the phrases of the babbler, the picks of `rand.Intn`, the random
draws of the generators, and the order in which a `range` loop visits a map.
A run that `assert` or a panic ends is an `Except.error`.
-/

set_option linter.dupNamespace false

namespace Rskvj

/-- A Go `string`: a finite sequence of bytes, each byte a number below 256. -/
abbrev GoString := List Nat

/-- The bytes of an ASCII literal. -/
def ascii (s : String) : GoString := s.toList.map Char.toNat

instance instDecidableEqExcept {ε α : Type} [DecidableEq ε] [DecidableEq α] :
    DecidableEq (Except ε α)
  | .ok a, .ok b => if h : a = b then isTrue (by rw [h]) else isFalse (fun e => h (by cases e; rfl))
  | .error a, .error b =>
    if h : a = b then isTrue (by rw [h]) else isFalse (fun e => h (by cases e; rfl))
  | .ok _, .error _ => isFalse (fun e => by cases e)
  | .error _, .ok _ => isFalse (fun e => by cases e)

/-- How a run of the program can stop abnormally: `assert` (main.go 238-242)
logs at level Fatal, which ends the process, and the Go runtime panics. -/
inductive Fault where
  | fatal (message : String) (raw : GoString) (err : String)
  | panicked (reason : String)
  deriving DecidableEq, Repr

/-- The function `assert` of main.go: nothing happens on a nil error, the
process ends with a fatal log entry carrying `fields` on any other. -/
def assert (err : Option String) (message : String) (raw : GoString) : Except Fault Unit :=
  match err with
  | none => .ok ()
  | some e => .error (.fatal message raw e)

/-! ## strconv.ParseUint (base 10, bitSize 64) and decimal rendering -/

/-- The two error kinds of `strconv`: `ErrSyntax` and `ErrRange`. -/
inductive NumError where
  | malformed
  | outOfRange
  deriving DecidableEq, Repr

/-- The largest `uint64`. -/
def maxUint64 : Nat := 2 ^ 64 - 1

/-- The constant `cutoff` of `strconv.ParseUint` for base 10: the smallest
number whose tenfold exceeds `maxUint64`. -/
def cutoff : Nat := maxUint64 / 10 + 1

/-- The helper `lower` of `strconv`: `c | ('x' - 'X')`. -/
def lower (c : Nat) : Nat := c ||| 32

/-- The digit loop of `strconv.ParseUint(s, 10, 64)`, `n` being the
accumulator: a byte that is no digit below the base is a syntax error, a
product or sum that leaves 64 bits a range error. -/
def parseUintLoop : List Nat → Nat → Except NumError Nat
  | [], n => .ok n
  | c :: cs, n =>
    let digit : Option Nat :=
      if 48 ≤ c ∧ c ≤ 57 then some (c - 48)
      else if 97 ≤ lower c ∧ lower c ≤ 122 then some (lower c - 97 + 10)
      else none
    match digit with
    | none => .error .malformed
    | some d =>
      if d ≥ 10 then .error .malformed
      else if n ≥ cutoff then .error .outOfRange
      else
        let n10 := (n * 10) % 2 ^ 64
        let n1 := (n10 + d) % 2 ^ 64
        if n1 < n10 ∨ n1 > maxUint64 then .error .outOfRange
        else parseUintLoop cs n1

/-- The call `strconv.ParseUint(s, 10, 64)`: the value and the error, the
value being 0 beside a syntax error and `maxUint64` beside a range error. -/
def ParseUint (s : GoString) : Nat × Option NumError :=
  if s = [] then (0, some .malformed)
  else
    match parseUintLoop s 0 with
    | .ok n => (n, none)
    | .error .malformed => (0, some .malformed)
    | .error .outOfRange => (maxUint64, some .outOfRange)

/-- The method `Error` of a `strconv.NumError`, reduced to its cause. -/
def NumError.Error : NumError → String
  | .malformed => "invalid syntax"
  | .outOfRange => "value out of range"

/-- The digit loop of `strconv.FormatUint(u, 10)`: digits are produced from
the least significant one, and at least one digit is written. -/
def formatBits : Nat → Nat → GoString → GoString
  | 0, _, acc => acc
  | fuel + 1, u, acc =>
    if u ≥ 10 then formatBits fuel (u / 10) ((48 + u % 10) :: acc)
    else (48 + u) :: acc

/-- Decimal rendering of a `uint64` (which has at most 20 digits). -/
def FormatUint (u : Nat) : GoString := formatBits 20 u []

/-! ## github.com/google/uuid: rendering, parsing and random generation -/

/-- The type `uuid.UUID`, an array of 16 bytes. -/
abbrev UUID := List Nat

/-- The digit table of `encoding/hex`. -/
def hextable : GoString := ascii "0123456789abcdef"

/-- The function `hex.Encode`: two lower-case digits for every byte. -/
def hexEncode : List Nat → GoString
  | [] => []
  | v :: vs => hextable.getD (v >>> 4) 0 :: hextable.getD (v &&& 0x0f) 0 :: hexEncode vs

/-- The function `encodeHex` of the uuid package: the five groups of the
canonical form, joined by `-` (byte 45). -/
def encodeHex (uuid : UUID) : GoString :=
  hexEncode (uuid.take 4) ++ 45 :: (hexEncode ((uuid.drop 4).take 2) ++ 45 ::
    (hexEncode ((uuid.drop 6).take 2) ++ 45 :: (hexEncode ((uuid.drop 8).take 2) ++ 45 ::
      hexEncode ((uuid.drop 10).take 6))))

/-- The method `UUID_String`: the canonical 36-byte form. -/
def UUID_String (uuid : UUID) : GoString := encodeHex uuid

/-- The table `xvalues` of the uuid package: the value of a hexadecimal
digit, 255 for every other byte. -/
def xvalues (c : Nat) : Nat :=
  if 48 ≤ c ∧ c ≤ 57 then c - 48
  else if 65 ≤ c ∧ c ≤ 70 then c - 65 + 10
  else if 97 ≤ c ∧ c ≤ 102 then c - 97 + 10
  else 255

/-- The function `xtob` of the uuid package: the byte two hexadecimal digits
denote, and whether both were digits. -/
def xtob (x1 x2 : Nat) : Nat × Bool :=
  let b1 := xvalues x1
  let b2 := xvalues x2
  (((b1 <<< 4) % 256) ||| b2, b1 ≠ 255 && b2 ≠ 255)

/-- The decoding loop of `uuid.ParseBytes`: the digit pair at every offset of
`offsets` in turn, the first pair that is not hexadecimal being an error. -/
def parseHexPairs (b : GoString) : List Nat → Except String UUID
  | [] => .ok []
  | x :: xs =>
    let r := xtob (b.getD x 0) (b.getD (x + 1) 0)
    if !r.2 then .error "invalid UUID format"
    else
      match parseHexPairs b xs with
      | .ok vs => .ok (r.1 :: vs)
      | .error e => .error e

/-- The tail of `uuid.ParseBytes`, for at least 36 bytes of the form
xxxxxxxx-xxxx-xxxx-xxxx-xxxxxxxxxxxx. -/
def parseHyphenated (b : GoString) : Except String UUID :=
  if b.getD 8 0 ≠ 45 ∨ b.getD 13 0 ≠ 45 ∨ b.getD 18 0 ≠ 45 ∨ b.getD 23 0 ≠ 45 then
    .error "invalid UUID format"
  else parseHexPairs b [0, 2, 4, 6, 9, 11, 14, 16, 19, 21, 24, 26, 28, 30, 32, 34]

/-- ASCII lower-casing of one byte. -/
def asciiLower (c : Nat) : Nat := if 65 ≤ c ∧ c ≤ 90 then c + 32 else c

/-- The function `uuid.ParseBytes`: the canonical form, the same with the
prefix `urn:uuid:` (compared without regard to case), the same between any
two bytes (the braces of the Microsoft form are not examined), or 32
hexadecimal digits.  The text of the prefix error is given without the
quoted prefix. -/
def ParseBytes (b : GoString) : Except String UUID :=
  if b.length = 36 then parseHyphenated b
  else if b.length = 36 + 9 then
    if (b.take 9).map asciiLower ≠ ascii "urn:uuid:" then .error "invalid urn prefix"
    else parseHyphenated (b.drop 9)
  else if b.length = 36 + 2 then parseHyphenated (b.drop 1)
  else if b.length = 32 then
    parseHexPairs b [0, 2, 4, 6, 8, 10, 12, 14, 16, 18, 20, 22, 24, 26, 28, 30]
  else .error ("invalid UUID length: " ++ toString b.length)

/-- The method `(*UUID).UnmarshalText`: the destination is overwritten only
when the text parses; the error is returned otherwise. -/
def UUID_UnmarshalText (dest : UUID) (data : GoString) : UUID × Option String :=
  match ParseBytes data with
  | .error e => (dest, some e)
  | .ok id => (id, none)

/-- What one call of a generator takes from the random sources: the result
of `rand.Uint64()` and the outcome of reading 16 bytes from the
cryptographic source (`none` when the read fails). -/
structure Draw where
  Uint64 : Nat
  Read : Option (List Nat)
  deriving DecidableEq, Repr

/-- The function `uuid.NewRandom`: sixteen random bytes with the version
nibble set to 4 and the variant bits to 10. -/
def NewRandom (d : Draw) : UUID × Option String :=
  match d.Read with
  | none => (List.replicate 16 0, some "read failed")
  | some bs =>
    let uuid := (List.range 16).map (fun i => bs.getD i 0 % 256)
    let uuid := uuid.set 6 ((uuid.getD 6 0 &&& 0x0f) ||| 0x40)
    let uuid := uuid.set 8 ((uuid.getD 8 0 &&& 0x3f) ||| 0x80)
    (uuid, none)

/-- The function `uuid4` of main.go (232-236). -/
def uuid4 (d : Draw) : Except Fault UUID :=
  let r := NewRandom d
  match assert r.2 "Couldn't generate UUIDv4" [] with
  | .error f => .error f
  | .ok () => .ok r.1

/-! ## The type table (main.go 22-44) -/

/-- The Go types the program handles as `reflect.Type` or as the dynamic
type of an `interface{}`. -/
inductive GoType where
  | string
  | uint16
  | uint64
  | UUID
  deriving DecidableEq, Repr

/-- A Go value of one of these types. -/
inductive Value where
  | string (s : GoString)
  | uint16 (n : Nat)
  | uint64 (n : Nat)
  | UUID (u : UUID)
  deriving DecidableEq, Repr

/-- The function `reflect.TypeOf`. -/
def TypeOf : Value → GoType
  | .string _ => .string
  | .uint16 _ => .uint16
  | .uint64 _ => .uint64
  | .UUID _ => .UUID

/-- The zero value of a type, as `reflect.New` allocates it. -/
def Zero : GoType → Value
  | .string => .string []
  | .uint16 => .uint16 0
  | .uint64 => .uint64 0
  | .UUID => .UUID (List.replicate 16 0)

/-- The call `fmt.Sprintf("%v", v)`: a string as it is, an unsigned integer in
decimal, a UUID through its `String` method. -/
def Sprintf_v : Value → GoString
  | .string s => s
  | .uint16 n => FormatUint n
  | .uint64 n => FormatUint n
  | .UUID u => UUID_String u

/-- An entry of `types`: a generator, and an extractor that is given the raw
string and the destination a pointer refers to, and returns the destination's
new content.  Either is `none` in the zero entry a missing key yields. -/
structure TypeEntry where
  generator : Option (Draw → Except Fault Value)
  extractor : Option (GoString → Value → Except Fault Value)

/-- The panic of `reflect.Value.Call` for an argument that is not assignable
to the parameter. -/
def callMismatch : Fault := .panicked "reflect: Call using argument of another type"

/-- Generator of `types[reflect.TypeOf("")]` (main.go 27). -/
def stringGenerator (d : Draw) : Except Fault Value := do
  let u ← uuid4 d
  pure (.string (UUID_String u))

/-- Extractor of `types[reflect.TypeOf("")]` (main.go 28), `dest *string`. -/
def stringExtractor (src : GoString) (dest : Value) : Except Fault Value :=
  match dest with
  | .string _ => .ok (.string src)
  | _ => .error callMismatch

/-- Generator of `types[reflect.TypeOf(uint16(0))]` (main.go 31): the result
is the `uint64` that `rand.Uint64() % (1 << 16)` is. -/
def uint16Generator (d : Draw) : Except Fault Value :=
  .ok (.uint64 ((d.Uint64 % 2 ^ 64) % (1 <<< 16)))

/-- Extractor of `types[reflect.TypeOf(uint16(0))]` (main.go 32-36),
`dest *uint16`; the conversion `uint16(u)` keeps the low 16 bits. -/
def uint16Extractor (src : GoString) (dest : Value) : Except Fault Value :=
  match dest with
  | .uint16 _ => do
    let (u, errPU) := ParseUint src
    assert (errPU.map NumError.Error) "Couldn't parse uInt" src
    pure (.uint16 (u % 2 ^ 16))
  | _ => .error callMismatch

/-- Generator of `types[reflect.TypeOf(uuid.UUID{})]` (main.go 39). -/
def uuidGenerator (d : Draw) : Except Fault Value := do
  let u ← uuid4 d
  pure (.UUID u)

/-- Extractor of `types[reflect.TypeOf(uuid.UUID{})]` (main.go 40-42),
`dest encoding.TextUnmarshaler`: of the types here only `*uuid.UUID`
implements the interface. -/
def uuidExtractor (src : GoString) (dest : Value) : Except Fault Value :=
  match dest with
  | .UUID u => do
    let (u, err) := UUID_UnmarshalText u src
    assert err "Couldn't parse UUID" src
    pure (.UUID u)
  | _ => .error callMismatch

/-- The map `types` of main.go, by its three entries. -/
def types : List (GoType × TypeEntry) :=
  [ (.string, ⟨some stringGenerator, some stringExtractor⟩),
    (.uint16, ⟨some uint16Generator, some uint16Extractor⟩),
    (.UUID, ⟨some uuidGenerator, some uuidExtractor⟩) ]

/-- The index expression `types[t]`: the zero entry for a missing key. -/
def typesAt (t : GoType) : TypeEntry :=
  match types.find? (fun e => e.1 = t) with
  | some e => e.2
  | none => ⟨none, none⟩

/-- A call of a generator held in an entry; calling a nil function panics. -/
def callGenerator (g : Option (Draw → Except Fault Value)) (d : Draw) : Except Fault Value :=
  match g with
  | none => .error (.panicked "invalid memory address or nil pointer dereference")
  | some f => f d

/-- The method `reflect.Value.Call` on `reflect.ValueOf(extractor)` with the
arguments `(src, &dest)`; `none` stands for the zero `reflect.Value`. -/
def Call (f : Option (GoString → Value → Except Fault Value)) (src : GoString) (dest : Value) :
    Except Fault Value :=
  match f with
  | none => .error (.panicked "reflect: call of reflect.Value.Call on zero Value")
  | some g => g src dest

/-! ## Go maps -/

/-- A Go `map[string]α`: its entries, no key twice.  The order of the list
is the order of insertion and has no meaning in Go; a `range` loop visits the
entries in an order of its own, which the loops below take as a parameter. -/
abbrev GoMap (α : Type) := List (GoString × α)

/-- The index expression `m[k]` with the comma-ok result. -/
def mapGet {α : Type} : GoMap α → GoString → Option α
  | [], _ => none
  | (k', v) :: m, k => if k' = k then some v else mapGet m k

/-- The assignment `m[k] = v`: the entry of `k` is replaced, or added. -/
def mapSet {α : Type} : GoMap α → GoString → α → GoMap α
  | [], k, v => [(k, v)]
  | (k', v') :: m, k, v => if k' = k then (k, v) :: m else (k', v') :: mapSet m k v

/-- The keys of a map. -/
def mapKeys {α : Type} (m : GoMap α) : List GoString := m.map Prod.fst

/-! ## The schema builder (main.go 61-85) -/

/-- The library functions whose result depends on Unicode tables or on the
version of the library; the development holds for every choice of them. -/
structure Libs where
  /-- The function `strings.ToLower`. -/
  ToLower : GoString → GoString
  /-- The function `strings.Title`. -/
  Title : GoString → GoString
  /-- Whether `reflect.StructOf` accepts the name for a field without a
  package path: a Go identifier that is exported. -/
  validFieldName : GoString → Bool
  /-- Whether `encoding/json` takes two keys for equal when it disregards
  case. -/
  EqualFold : GoString → GoString → Bool

/-- The call `strings.ReplaceAll(s, old, new)` for a pattern `old` of one
ASCII byte. -/
def ReplaceAll : GoString → Nat → GoString → GoString
  | [], _, _ => []
  | c :: s, old, new => (if c = old then new else [c]) ++ ReplaceAll s old new

/-- A `reflect.StructField`; `Tag` is the key that the tag
`json:"..."` names. -/
structure StructField where
  Name : GoString
  Typ : GoType
  Tag : GoString
  deriving DecidableEq, Repr

/-- The wire key of round `i` of the loop at main.go 73-83 (line 74);
`babble i` is what the call of `babbler.Babble()` in that round returns. -/
def jsonTagAt (L : Libs) (babble : Nat → GoString) (i : Nat) : GoString := L.ToLower (babble i)

/-- The `reflect.StructField` of round `i` (main.go 76-80); `oTypes` holds
the keys of `types` in the order the loop at 69-71 met them, which are three,
and `intn i` reduced modulo `len(oTypes)` is what `rand.Intn` returns in that
round. -/
def fieldAt (L : Libs) (oTypes : List GoType) (babble : Nat → GoString) (intn : Nat → Nat)
    (i : Nat) : StructField :=
  { Name := ReplaceAll (L.Title (ReplaceAll (jsonTagAt L babble i) 95 [32])) 32 []
    Typ := oTypes.getD (intn i % oTypes.length) .string
    Tag := jsonTagAt L babble i }

/-- The state of the loop at main.go 73-83 after `i` rounds: `fields` and
`jsonTags`. -/
def schemaLoop (L : Libs) (oTypes : List GoType) (babble : Nat → GoString) (intn : Nat → Nat) :
    Nat → List StructField × GoMap Nat
  | 0 => ([], [])
  | i + 1 =>
    let st := schemaLoop L oTypes babble intn i
    (st.1 ++ [fieldAt L oTypes babble intn i], mapSet st.2 (jsonTagAt L babble i) i)

/-- The checks of `reflect.StructOf` on the field names, in the order of the
fields; `fset` holds the names met so far.  The fields have no package path,
so a name that is not exported, also the blank name, is refused. -/
def structOfLoop (L : Libs) : List StructField → List GoString → Except Fault Unit
  | [], _ => .ok ()
  | f :: fs, fset =>
    if !L.validFieldName f.Name then
      .error (.panicked "reflect.StructOf: field has invalid name")
    else if f.Name ∈ fset then .error (.panicked "reflect.StructOf: duplicate field")
    else structOfLoop L fs (f.Name :: fset)

/-- The call `reflect.StructOf(fields)`: the struct type, by its fields. -/
def StructOf (L : Libs) (fields : List StructField) : Except Fault (List StructField) := do
  structOfLoop L fields []
  pure fields

/-- What the rest of `main` uses of the schema: the struct type `typ` and
the map `jsonTags` from wire key to field index. -/
structure Schema where
  typ : List StructField
  jsonTags : GoMap Nat
  deriving DecidableEq, Repr

/-- The schema builder, main.go 65-85, for `nFields` fields. -/
def buildSchema (L : Libs) (oTypes : List GoType) (babble : Nat → GoString) (intn : Nat → Nat)
    (nFields : Nat) : Except Fault Schema := do
  let st := schemaLoop L oTypes babble intn nFields
  let typ ← StructOf L st.1
  pure ⟨typ, st.2⟩

/-- The method `Field(i)` of a struct type or struct value: it panics when
the index is out of range. -/
def Field {α : Type} (fields : List α) (i : Nat) : Except Fault α :=
  match fields.get? i with
  | some f => .ok f
  | none => .error (.panicked "reflect: Field index out of range")

/-! ## Record generation and the two encodings (main.go 92-99, 160-164) -/

/-- The loop at main.go 94-96 over the entries `it` of `jsonTags`, in the
order the `range` visits them: `item[k]` receives what the generator of the
field's type returns.  `draws j` feeds the `j`-th generator call. -/
def generateItem (typ : List StructField) :
    List (GoString × Nat) → (Nat → Draw) → GoMap Value → Except Fault (GoMap Value)
  | [], _, item => .ok item
  | (k, i) :: it, draws, item => do
    let f ← Field typ i
    let v ← callGenerator (typesAt f.Typ).generator (draws 0)
    generateItem typ it (fun j => draws (j + 1)) (mapSet item k v)

/-- The loop at main.go 162-164: the key and the default rendering of a
freshly generated value are appended for every entry of `jsonTags`. -/
def fillKV (typ : List StructField) :
    List (GoString × Nat) → (Nat → Draw) → List GoString → Except Fault (List GoString)
  | [], _, item => .ok item
  | (k, i) :: it, draws, item => do
    let f ← Field typ i
    let v ← callGenerator (typesAt f.Typ).generator (draws 0)
    fillKV typ it (fun j => draws (j + 1)) (item ++ [k, Sprintf_v v])

/-! ## The K/V reader (main.go 175-183, 206-211) -/

/-- The local type `extractor` of main.go 175-178; the zero
`reflect.Value` is `none`. -/
structure extractor where
  field : Nat
  extractor : Option (GoString → Value → Except Fault Value)

/-- The loop at main.go 181-183 over the entries `it` of `jsonTags`. -/
def buildExtractors (typ : List StructField) :
    List (GoString × Nat) → GoMap extractor → Except Fault (GoMap extractor)
  | [], extractors => .ok extractors
  | (k, i) :: it, extractors => do
    let f ← Field typ i
    buildExtractors typ it (mapSet extractors k ⟨i, (typesAt f.Typ).extractor⟩)

/-- A value of `msg.Values`: a string, or anything else. -/
inductive RedisValue where
  | str (s : GoString)
  | other
  deriving DecidableEq, Repr

/-- The statements at main.go 210-211 for a string `vs` under key `k`: the
entry of `k` (the zero entry when there is none) is looked up, the address of
its field of `z` is taken, and the extractor is called with both. -/
def extractPair (extractors : GoMap extractor) (z : List Value) (k vs : GoString) :
    Except Fault (List Value) := do
  let ex := (mapGet extractors k).getD ⟨0, none⟩
  let dest ← Field z ex.field
  let dest ← Call ex.extractor vs dest
  pure (z.set ex.field dest)

/-- The value `reflect.New(typ).Elem()`: every field at its zero value. -/
def New (typ : List StructField) : List Value := typ.map (fun f => Zero f.Typ)

/-- The loop at main.go 208-211 over the entries of `msg.Values` in the
order the `range` visits them, `z` being the struct decoded into. -/
def decodePairs (extractors : GoMap extractor) :
    List (GoString × RedisValue) → List Value → Except Fault (List Value)
  | [], z => .ok z
  | (k, .str vs) :: rest, z => do
    let z ← extractPair extractors z k vs
    decodePairs extractors rest z
  | (_, .other) :: rest, z => decodePairs extractors rest z

/-- Decoding of one K/V message (main.go 206-211): a fresh struct value is
filled from the pairs of the message. -/
def decodeKV (extractors : GoMap extractor) (typ : List StructField)
    (values : List (GoString × RedisValue)) : Except Fault (List Value) :=
  decodePairs extractors values (New typ)

/-- The map `msg.Values` that the Redis client builds from the pairs of a
stream entry, in their order: every string at an even position of the flat
list is a key, the string after it the value, and a later pair replaces an
earlier one of the same key. -/
def toValuesFrom : List GoString → GoMap RedisValue → GoMap RedisValue
  | k :: v :: rest, m => toValuesFrom rest (mapSet m k (.str v))
  | _, m => m

/-- The values of the message that `XADD` with the flat list `item` leaves
in the stream. -/
def toValues (item : List GoString) : GoMap RedisValue := toValuesFrom item []


/-! ## Decimal numerals -/

/-- The number a string of decimal digits denotes, continuing from `n`. -/
def decimalFrom (n : Nat) (s : GoString) : Nat := s.foldl (fun n c => n * 10 + (c - 48)) n

/-- The number a string of decimal digits denotes. -/
def decimalValue (s : GoString) : Nat := decimalFrom 0 s

/-- Every byte is a decimal digit. -/
def allDigits (s : GoString) : Prop := ∀ c ∈ s, 48 ≤ c ∧ c ≤ 57

instance instDecidableAllDigits (s : GoString) : Decidable (allDigits s) := by
  unfold allDigits
  infer_instance

/-! ## Equality of a decoded value and a generated value -/

/-- Equality under the kind: of strings, of UUIDs, and of unsigned integers
whatever their width. -/
def equalValues : Value → Value → Bool
  | .string a, .string b => a = b
  | .UUID a, .UUID b => a = b
  | .uint16 a, .uint16 b => a = b
  | .uint16 a, .uint64 b => a = b
  | .uint64 a, .uint16 b => a = b
  | .uint64 a, .uint64 b => a = b
  | _, _ => false

/-- The kinds registered in `types`. -/
def registered : List GoType := types.map Prod.fst

/-- The type `reflect.TypeOf(generator())` for the generator of a kind. -/
def generatedType : GoType → GoType
  | .uint16 => .uint64
  | t => t

/-- A value as a generator of the kind `t` returns it: a canonical UUID
string of 36 bytes for `string`, a `uint64` below 65536 for `uint16`, sixteen
bytes with version 4 and variant 10 for `uuid.UUID`. -/
def wellGenerated (t : GoType) (v : Value) : Prop :=
  match t, v with
  | .string, .string s => ∃ u : UUID, u.length = 16 ∧ (∀ b ∈ u, b < 256) ∧ s = UUID_String u
  | .uint16, .uint64 n => n < 65536
  | .UUID, .UUID u => u.length = 16 ∧ (∀ b ∈ u, b < 256) ∧ u.getD 6 0 / 16 = 4 ∧ u.getD 8 0 / 64 = 2
  | _, _ => False

/-! ## The record a fill loop generates -/

/-- The record that one run of the loop header shared by main.go 94-96 and
162-164 generates: for every entry `(k, i)` of `jsonTags` in the order of the
`range`, the key `k` and the value the generator of field `i` returns. -/
def genEntries (typ : List StructField) :
    List (GoString × Nat) → (Nat → Draw) → Except Fault (List (GoString × Value))
  | [], _ => .ok []
  | (k, i) :: it, draws => do
    let f ← Field typ i
    let v ← callGenerator (typesAt f.Typ).generator (draws 0)
    let rest ← genEntries typ it (fun j => draws (j + 1))
    pure ((k, v) :: rest)

/-- The flat list of a record: every key followed by the default rendering
of its value. -/
def flatten : List (GoString × Value) → List GoString
  | [] => []
  | (k, v) :: rest => k :: Sprintf_v v :: flatten rest

/-- The map a record fills, starting from `item`. -/
def assignAll (item : GoMap Value) (R : List (GoString × Value)) : GoMap Value :=
  R.foldl (fun m e => mapSet m e.1 e.2) item

/-! ## The texts that denote a UUID -/

/-- Whether a byte is a hexadecimal digit: 0-9, A-F or a-f. -/
def hexDigit (c : Nat) : Bool :=
  (48 ≤ c && c ≤ 57) || (65 ≤ c && c ≤ 70) || (97 ≤ c && c ≤ 102)

/-- Whether the first 36 bytes of `b` have the form
xxxxxxxx-xxxx-xxxx-xxxx-xxxxxxxxxxxx: a hyphen (byte 45) at the positions 8,
13, 18 and 23, a hexadecimal digit at every other one. -/
def hyphenatedForm (b : GoString) : Bool :=
  (List.range 36).all (fun i =>
    if i = 8 ∨ i = 13 ∨ i = 18 ∨ i = 23 then b.getD i 0 = 45 else hexDigit (b.getD i 0))

/-- Whether `b` is the text of a UUID in one of the four forms: 36 bytes in
hyphenated form; 45 bytes, the prefix `urn:uuid:` in any case and then the
hyphenated form; 38 bytes, the hyphenated form between two bytes of any kind;
or 32 hexadecimal digits. -/
def uuidText (b : GoString) : Bool :=
  (b.length = 36 && hyphenatedForm b) ||
    (b.length = 45 && (b.take 9).map asciiLower = ascii "urn:uuid:" && hyphenatedForm (b.drop 9)) ||
    (b.length = 38 && hyphenatedForm (b.drop 1)) ||
    (b.length = 32 && (List.range 32).all (fun i => hexDigit (b.getD i 0)))

/-! ## Sample data -/

/-- Upper-casing of one ASCII byte. -/
def asciiUpper (c : Nat) : Nat := if 97 ≤ c ∧ c ≤ 122 then c - 32 else c

/-- Whether a byte is an ASCII letter. -/
def asciiLetter (c : Nat) : Bool := (65 ≤ c && c ≤ 90) || (97 ≤ c && c ≤ 122)

/-- The helper `isSeparator` of `strings` on ASCII: every byte that is no
letter, no digit and no underscore. -/
def asciiSeparator (c : Nat) : Bool := !(asciiLetter c || (48 ≤ c && c ≤ 57) || c = 95)

/-- The function `strings.Title` on ASCII text: a byte that follows a
separator, or starts the text, is written in upper case; `afterSeparator`
tells whether the byte before was a separator. -/
def asciiTitle : GoString → Bool → GoString
  | [], _ => []
  | c :: s, afterSeparator =>
    (if afterSeparator then asciiUpper c else c) :: asciiTitle s (asciiSeparator c)

/-- Whether an ASCII name is an exported Go identifier. -/
def asciiExported : GoString → Bool
  | [] => false
  | c :: s => (65 ≤ c && c ≤ 90) && s.all (fun x => asciiLetter x || (48 ≤ x && x ≤ 57) || x = 95)

/-- The library functions on ASCII text. -/
def asciiLibs : Libs :=
  { ToLower := fun s => s.map asciiLower
    Title := fun s => asciiTitle s true
    validFieldName := asciiExported
    EqualFold := fun a b => a.map asciiLower = b.map asciiLower }

/-- A draw whose sixteen random bytes give the UUID
f47ac10b-58cc-4372-a567-0e02b2c3d479 once version and variant are set. -/
def sampleDraw : Draw :=
  ⟨42, some [0xf4, 0x7a, 0xc1, 0x0b, 0x58, 0xcc, 0x03, 0x72, 0x25, 0x67, 0x0e, 0x02, 0xb2, 0xc3,
    0xd4, 0x79]⟩

/-- Two phrases of a babbler: the fields of the sample schema. -/
def sampleBabble (i : Nat) : GoString := if i = 0 then ascii "Alpha" else ascii "Beta"

/-- The picks of `rand.Intn` for the sample schema: `uint16`, then `string`. -/
def sampleIntn (i : Nat) : Nat := if i = 0 then 1 else 0

/-- The random draws of the sample record: the number 42 and the bytes of
f47ac10b-58cc-4372-a567-0e02b2c3d479 before version and variant are set. -/
def sampleDraws (i : Nat) : Draw := if i = 0 then ⟨42, none⟩ else sampleDraw

/-- A babbler that repeats itself. -/
def sameBabble (_ : Nat) : GoString := ascii "red_fox_den"

/-- The schema with the fields alpha, a `uint16`, and beta, a `string`. -/
def sampleSchema : Schema :=
  { typ := [⟨ascii "Alpha", .uint16, ascii "alpha"⟩, ⟨ascii "Beta", .string, ascii "beta"⟩]
    jsonTags := [(ascii "alpha", 0), (ascii "beta", 1)] }

/-- The record of the sample schema: alpha is 42, beta the canonical text
of a version 4 UUID. -/
def sampleRecord : List (GoString × Value) :=
  [(ascii "alpha", .uint64 42),
    (ascii "beta", .string (ascii "f47ac10b-58cc-4372-a567-0e02b2c3d479"))]

/-- The K/V encoding of the sample record. -/
def sampleItem : List GoString :=
  [ascii "alpha", ascii "42", ascii "beta", ascii "f47ac10b-58cc-4372-a567-0e02b2c3d479"]

/-! ## encoding/json (main.go 98, 135)

A JSON text is represented by what the scanner of `encoding/json` reads from
it: the lexical layer, quoting and escaping, is not modelled, so the text
that `json.Marshal` writes is identified with the members it denotes. -/

/-- A JSON value as the member of an object: `composite` is an array or an
object, `number` carries the literal. -/
inductive JSONValue where
  | null
  | bool (b : Bool)
  | number (literal : GoString)
  | string (s : GoString)
  | composite
  deriving DecidableEq, Repr

/-- A JSON text: no valid JSON, an object by its members in the order of the
text, or another value. -/
inductive JSONText where
  | malformed
  | object (members : List (GoString × JSONValue))
  | other (v : JSONValue)
  deriving DecidableEq, Repr

/-- The encoding of one value of the map by `json.Marshal`: a string as a
JSON string, an unsigned integer as a decimal literal, a UUID as the JSON
string of its `MarshalText`, the canonical form. -/
def marshalValue : Value → JSONValue
  | .string s => .string s
  | .uint16 n => .number (FormatUint n)
  | .uint64 n => .number (FormatUint n)
  | .UUID u => .string (UUID_String u)

/-- The call `json.Marshal(item)` for the map `item`: an object with the
members in the order of their keys. -/
def Marshal (item : GoMap Value) : JSONText :=
  .object ((item.insertionSort (fun a b => a.1 ≤ b.1)).map (fun e => (e.1, marshalValue e.2)))

/-- The field of the struct type that `encoding/json` decodes the member
`key` into: the field whose tag names `key` exactly, else the first one whose
tag equals it when case is disregarded; a name that several tags give belongs
to no field. -/
def jsonField (L : Libs) (typ : List StructField) (key : GoString) : Option Nat :=
  let named := fun (i : Nat) => (typ.getD i ⟨[], .string, []⟩).Tag
  let live := (List.range typ.length).filter
    (fun i => (typ.filter (fun f => f.Tag = named i)).length = 1)
  match live.find? (fun i => named i = key) with
  | some i => some i
  | none => live.find? (fun i => L.EqualFold (named i) key)

/-- What `encoding/json` does with one member value for a destination
`dest`: the new content, an `UnmarshalTypeError` that is saved while decoding
goes on (`Except.error (Sum.inl _)`) or an error that ends decoding
(`Sum.inr _`).  A null changes nothing; a string field takes a JSON string; a
`uint16` field takes a literal that `strconv.ParseUint` reads and that fits in
16 bits; a UUID is a `TextUnmarshaler` and takes a JSON string through
`UnmarshalText`. -/
def storeValue (v : JSONValue) (dest : Value) : Except (String ⊕ String) Value :=
  match v, dest with
  | .null, _ => .ok dest
  | .string s, .string _ => .ok (.string s)
  | .number lit, .uint16 _ =>
    let (n, err) := ParseUint lit
    if err.isSome ∨ n ≥ 2 ^ 16 then .error (.inl "json: cannot unmarshal number")
    else .ok (.uint16 n)
  | .number lit, .uint64 _ =>
    let (n, err) := ParseUint lit
    if err.isSome then .error (.inl "json: cannot unmarshal number") else .ok (.uint64 n)
  | .string s, .UUID u =>
    let (u, err) := UUID_UnmarshalText u s
    match err with
    | some e => .error (.inr e)
    | none => .ok (.UUID u)
  | _, _ => .error (.inl "json: cannot unmarshal value")

/-- The loop of `encoding/json` over the members of an object: `z` is the
struct decoded into, `saved` the first saved error. -/
def decodeMembers (L : Libs) (typ : List StructField) :
    List (GoString × JSONValue) → List Value → Option String → List Value × Option String
  | [], z, saved => (z, saved)
  | (key, v) :: rest, z, saved =>
    match jsonField L typ key with
    | none => decodeMembers L typ rest z saved
    | some i =>
      match storeValue v (z.getD i (.string [])) with
      | .ok d => decodeMembers L typ rest (z.set i d) saved
      | .error (.inl e) => decodeMembers L typ rest z (saved.orElse (fun _ => some e))
      | .error (.inr e) => (z, some e)

/-- The call `json.Unmarshal(text, p)` for a pointer `p` to the struct `z` of
type `typ`: the struct afterwards and the error. -/
def Unmarshal (L : Libs) (typ : List StructField) (text : JSONText) (z : List Value) :
    List Value × Option String :=
  match text with
  | .malformed => (z, some "invalid character")
  | .other .null => (z, none)
  | .other _ => (z, some "json: cannot unmarshal value into Go value of struct type")
  | .object members => decodeMembers L typ members z none

/-- Decoding of one JSON message (main.go 134-137): the text is unmarshalled
into a fresh struct value, and an error ends the run; the bytes of the text,
which the log entry carries, are not modelled. -/
def decodeJSON (L : Libs) (typ : List StructField) (js : JSONText) : Except Fault (List Value) := do
  let (z, err) := Unmarshal L typ js (New typ)
  assert err "Couldn't decode JSON" []
  pure z

/-! ## The read loops (main.go 111-148, 186-223)

The stream is the list of its messages in the order of their IDs; the ID of
a message is its position counted from 1, and the cursor `xra.Streams[1]`
starts at 0.  `XREAD` is taken to deliver without transient errors. -/

/-- The variables of a read loop: the counter `i`, the cursor
`xra.Streams[1]`, and the number of decoding calls made so far (calls of an
extractor at 211, of `json.Unmarshal` at 135). -/
structure Progress where
  i : Nat
  cursor : Nat
  calls : Nat
  deriving DecidableEq, Repr

/-- How far a read loop has come: it goes on, it was left (by `break XRead`
or on `redis.Nil`), or the process ended in a decoding call. -/
inductive Run where
  | running (p : Progress)
  | left (p : Progress)
  | failed (p : Progress) (f : Fault)
  deriving DecidableEq, Repr

/-- The call `rd.XRead` with `Count: 100`: the messages after the cursor, at
most 100 of them; `none` is `redis.Nil`, returned when there is none. -/
def XRead {α : Type} (stream : List α) (cursor : Nat) : Option (List α) :=
  match (stream.drop cursor).take 100 with
  | [] => none
  | m :: ms => some (m :: ms)

/-- The loop at main.go 208-220 over the pairs of one message. -/
def pairsLoop (items : Nat) (extractors : GoMap extractor) :
    List (GoString × RedisValue) → List Value → Progress → Run
  | [], _, p => .running p
  | (k, .str vs) :: rest, z, p =>
    match extractPair extractors z k vs with
    | .error f => .failed { p with calls := p.calls + 1 } f
    | .ok z =>
      if p.i + 1 = items then .left { p with i := p.i + 1, calls := p.calls + 1 }
      else pairsLoop items extractors rest z { p with i := p.i + 1, calls := p.calls + 1 }
  | (_, .other) :: rest, z, p => pairsLoop items extractors rest z p

/-- The loop at main.go 204-221 over the messages of one reply. -/
def messagesLoopKV (items : Nat) (extractors : GoMap extractor) (typ : List StructField) :
    List (List (GoString × RedisValue)) → Progress → Run
  | [], p => .running p
  | msg :: rest, p =>
    match pairsLoop items extractors msg (New typ) { p with cursor := p.cursor + 1 } with
    | .running p => messagesLoopKV items extractors typ rest p
    | r => r

/-- The loop `XRead2` at main.go 194-223, for at most `fuel` calls of
`XREAD`; `none` when they do not suffice. -/
def readLoopKV (items : Nat) (extractors : GoMap extractor) (typ : List StructField)
    (stream : List (List (GoString × RedisValue))) : Nat → Progress → Option Run
  | 0, _ => none
  | fuel + 1, p =>
    match XRead stream p.cursor with
    | none => some (.left p)
    | some messages =>
      match messagesLoopKV items extractors typ messages p with
      | .running p => readLoopKV items extractors typ stream fuel p
      | r => some r

/-- The K/V read phase (main.go 186-223). -/
def readKV (items : Nat) (extractors : GoMap extractor) (typ : List StructField)
    (stream : List (List (GoString × RedisValue))) : Option Run :=
  readLoopKV items extractors typ stream (stream.length + 1) ⟨0, 0, 0⟩

/-- The loop at main.go 129-146 over the messages of one reply; a message
is given by the value under its key json: the JSON text when that value is a
string, `none` when it is missing or no string. -/
def messagesLoopJSON (items : Nat) (L : Libs) (typ : List StructField) :
    List (Option JSONText) → Progress → Run
  | [], p => .running p
  | none :: rest, p => messagesLoopJSON items L typ rest { p with cursor := p.cursor + 1 }
  | some js :: rest, p =>
    match decodeJSON L typ js with
    | .error f => .failed { p with cursor := p.cursor + 1, calls := p.calls + 1 } f
    | .ok _ =>
      if p.i + 1 = items then
        .left { i := p.i + 1, cursor := p.cursor + 1, calls := p.calls + 1 }
      else
        messagesLoopJSON items L typ rest
          { i := p.i + 1, cursor := p.cursor + 1, calls := p.calls + 1 }

/-- The loop `XRead` at main.go 119-148, for at most `fuel` calls of
`XREAD`. -/
def readLoopJSON (items : Nat) (L : Libs) (typ : List StructField)
    (stream : List (Option JSONText)) : Nat → Progress → Option Run
  | 0, _ => none
  | fuel + 1, p =>
    match XRead stream p.cursor with
    | none => some (.left p)
    | some messages =>
      match messagesLoopJSON items L typ messages p with
      | .running p => readLoopJSON items L typ stream fuel p
      | r => some r

/-- The JSON read phase (main.go 111-148). -/
def readJSON (items : Nat) (L : Libs) (typ : List StructField)
    (stream : List (Option JSONText)) : Option Run :=
  readLoopJSON items L typ stream (stream.length + 1) ⟨0, 0, 0⟩

/-- The number of pairs of a message whose value is a string. -/
def stringPairs (msg : List (GoString × RedisValue)) : Nat :=
  (msg.filter (fun p => p.2 ≠ .other)).length

/-- The number of pairs with a string value in all messages. -/
def totalPairs (stream : List (List (GoString × RedisValue))) : Nat :=
  (stream.map stringPairs).sum

/-- The number of messages whose value under json is a string. -/
def totalTexts (stream : List (Option JSONText)) : Nat :=
  (stream.filter Option.isSome).length

/-- A stream of three K/V messages for the sample schema. -/
def sampleStreamKV : List (List (GoString × RedisValue)) :=
  List.replicate 3 [(ascii "alpha", .str (ascii "42")),
    (ascii "beta", .str (ascii "f47ac10b-58cc-4372-a567-0e02b2c3d479"))]

/-- A stream of three JSON messages for the sample schema. -/
def sampleStreamJSON : List (Option JSONText) :=
  List.replicate 3 (some (Marshal sampleRecord))

/-- A stream of two K/V messages, the first with one pair, whose value
under alpha is no number. -/
def badStreamKV : List (List (GoString × RedisValue)) :=
  [[(ascii "alpha", .str (ascii "x"))],
    [(ascii "alpha", .str (ascii "1")), (ascii "beta", .str (ascii "y"))]]

/-- A stream of three JSON messages, the first of them no valid JSON. -/
def badStreamJSON : List (Option JSONText) :=
  [some .malformed, some (Marshal sampleRecord), some (Marshal sampleRecord)]

/-- The ends of a read loop that has met `items` decodable entries: it was
left with the counter and the number of decoding calls both at `items`, or
the process ended in a decoding call that was the next after `i` successful
ones and at most the `items`-th. -/
def Run.sound (items : Nat) : Run → Prop
  | .running _ => False
  | .left p => p.i = items ∧ p.calls = items
  | .failed p _ => p.calls = p.i + 1 ∧ p.calls ≤ items

/-! # Theorems -/

/-! ## Decimal numerals are parsed to their value -/

theorem decimalFrom_ge (s : GoString) (n : Nat) : n ≤ decimalFrom n s := by
  induction s generalizing n with
  | nil => simp [decimalFrom]
  | cons c cs ih =>
    have h := ih (n * 10 + (c - 48))
    simp only [decimalFrom, List.foldl_cons] at h ⊢
    omega

theorem parseUintLoop_digits (s : GoString) (n : Nat) (hdig : allDigits s)
    (hlt : decimalFrom n s < 2 ^ 64) : parseUintLoop s n = .ok (decimalFrom n s) := by
  induction s generalizing n with
  | nil => simp [parseUintLoop, decimalFrom]
  | cons c cs ih =>
    have hc : 48 ≤ c ∧ c ≤ 57 := hdig c (List.mem_cons_self _ _)
    have hcs : allDigits cs := fun x hx => hdig x (List.mem_cons_of_mem _ hx)
    have hstep : decimalFrom n (c :: cs) = decimalFrom (n * 10 + (c - 48)) cs := by
      simp [decimalFrom]
    rw [hstep] at hlt ⊢
    have hge := decimalFrom_ge cs (n * 10 + (c - 48))
    have h1 : n * 10 + (c - 48) < 2 ^ 64 := lt_of_le_of_lt hge hlt
    have h10 : n * 10 < 2 ^ 64 := by omega
    have hcut : ¬ n ≥ cutoff := by
      simp only [cutoff, maxUint64]
      norm_num at h1 h10 ⊢
      omega
    have hm1 : (n * 10) % 2 ^ 64 = n * 10 := Nat.mod_eq_of_lt h10
    have hm2 : (n * 10 + (c - 48)) % 2 ^ 64 = n * 10 + (c - 48) := Nat.mod_eq_of_lt h1
    have hd : ¬ c - 48 ≥ 10 := by omega
    have hov : ¬ (n * 10 + (c - 48) < n * 10 ∨ n * 10 + (c - 48) > maxUint64) := by
      simp only [maxUint64]
      norm_num at h1 ⊢
      omega
    rw [parseUintLoop]
    simp only [hc, and_self, if_true, hd, if_false, hcut, hm1, hm2, hov]
    exact ih _ hcs hlt

theorem ParseUint_digits (s : GoString) (hne : s ≠ []) (hdig : allDigits s)
    (hlt : decimalValue s < 2 ^ 64) : ParseUint s = (decimalValue s, none) := by
  simp [ParseUint, hne, parseUintLoop_digits s 0 hdig hlt, decimalValue]

theorem uint16Extractor_digits (s : GoString) (dest : Nat) (hne : s ≠ []) (hdig : allDigits s)
    (hlt : decimalValue s < 2 ^ 64) :
    uint16Extractor s (.uint16 dest) = .ok (.uint16 (decimalValue s % 2 ^ 16)) := by
  simp [uint16Extractor, ParseUint_digits s hne hdig hlt, assert, bind, Except.bind, pure,
    Except.pure]

/-! ## Decimal rendering is read back -/

theorem decimalFrom_append (n : Nat) (s t : GoString) :
    decimalFrom n (s ++ t) = decimalFrom (decimalFrom n s) t := by
  simp [decimalFrom, List.foldl_append]

theorem formatBits_spec (fuel : Nat) : ∀ (u : Nat) (acc : GoString), u < 10 ^ (fuel + 1) →
    ∃ ds : GoString, formatBits (fuel + 1) u acc = ds ++ acc ∧ allDigits ds ∧ ds ≠ [] ∧
      ∀ n, decimalFrom n ds = n * 10 ^ ds.length + u := by
  induction fuel with
  | zero =>
    intro u acc h
    have hu : ¬ u ≥ 10 := by omega
    refine ⟨[48 + u], ?_, ?_, by simp, ?_⟩
    · simp [formatBits, hu]
    · intro c hc
      simp only [List.mem_singleton] at hc
      omega
    · intro n
      simp [decimalFrom]
  | succ fuel ih =>
    intro u acc h
    by_cases hu : u ≥ 10
    · have hdiv : u / 10 < 10 ^ (fuel + 1) := by
        rw [Nat.div_lt_iff_lt_mul (by norm_num)]
        rw [pow_succ] at h
        exact h
      obtain ⟨ds, hds, hdig, -, hval⟩ := ih (u / 10) ((48 + u % 10) :: acc) hdiv
      refine ⟨ds ++ [48 + u % 10], ?_, ?_, by simp, ?_⟩
      · rw [formatBits]
        simp [hu, hds]
      · intro c hc
        rcases List.mem_append.mp hc with hc | hc
        · exact hdig c hc
        · simp only [List.mem_singleton] at hc
          omega
      · intro n
        rw [decimalFrom_append, hval]
        simp only [decimalFrom, List.foldl_cons, List.foldl_nil, List.length_append,
          List.length_singleton, pow_succ]
        rw [Nat.add_sub_cancel_left]
        nlinarith [Nat.div_add_mod u 10]
    · refine ⟨[48 + u], ?_, ?_, by simp, ?_⟩
      · rw [formatBits]
        simp [hu]
      · intro c hc
        simp only [List.mem_singleton] at hc
        omega
      · intro n
        simp [decimalFrom]

theorem FormatUint_spec (u : Nat) (hu : u < 2 ^ 64) :
    FormatUint u ≠ [] ∧ allDigits (FormatUint u) ∧ decimalValue (FormatUint u) = u := by
  have h20 : u < 10 ^ 20 := lt_trans hu (by norm_num)
  obtain ⟨ds, hds, hdig, hne, hval⟩ := formatBits_spec 19 u [] h20
  have h : FormatUint u = ds := by simp [FormatUint, hds]
  rw [h]
  exact ⟨hne, hdig, by simp [decimalValue, hval]⟩

/-! ## The canonical form of a UUID is read back -/

set_option maxRecDepth 200000 in
theorem xtob_hex : ∀ b, b < 256 →
    xtob (hextable.getD (b >>> 4) 0) (hextable.getD (b &&& 0x0f) 0) = (b, true) := by
  decide


theorem xtob_hex_get (b : Nat) (h : b < 256) :
    xtob (hextable[b >>> 4]?.getD 0) (hextable[b &&& 15]?.getD 0) = (b, true) := by
  simpa using xtob_hex b h

theorem ParseBytes_String (u : UUID) (hlen : u.length = 16) (hb : ∀ b ∈ u, b < 256) :
    ParseBytes (UUID_String u) = .ok u := by
  rcases u with _ | ⟨b0, _ | ⟨b1, _ | ⟨b2, _ | ⟨b3, _ | ⟨b4, _ | ⟨b5, _ | ⟨b6, _ | ⟨b7, _ | ⟨b8, _ | ⟨b9, _ | ⟨b10, _ | ⟨b11, _ | ⟨b12, _ | ⟨b13, _ | ⟨b14, _ | ⟨b15, _ | ⟨_, _⟩⟩⟩⟩⟩⟩⟩⟩⟩⟩⟩⟩⟩⟩⟩⟩⟩ <;> simp at hlen
  simp only [List.mem_cons, List.mem_singleton, List.not_mem_nil, or_false, forall_eq_or_imp,
    forall_eq] at hb
  obtain ⟨h0, h1, h2, h3, h4, h5, h6, h7, h8, h9, h10, h11, h12, h13, h14, h15⟩ := hb
  simp [UUID_String, encodeHex, hexEncode, ParseBytes, parseHyphenated, parseHexPairs,
    xtob_hex_get _ h0, xtob_hex_get _ h1, xtob_hex_get _ h2, xtob_hex_get _ h3, xtob_hex_get _ h4, xtob_hex_get _ h5, xtob_hex_get _ h6, xtob_hex_get _ h7, xtob_hex_get _ h8, xtob_hex_get _ h9, xtob_hex_get _ h10, xtob_hex_get _ h11, xtob_hex_get _ h12, xtob_hex_get _ h13, xtob_hex_get _ h14, xtob_hex_get _ h15]

/-! ## Generators and extractors of the three kinds -/

set_option maxRecDepth 200000 in
theorem version_byte_lt : ∀ x, x < 256 → ((x &&& 0x0f) ||| 0x40) < 256 ∧
    ((x &&& 0x0f) ||| 0x40) / 16 = 4 := by
  decide

set_option maxRecDepth 200000 in
theorem variant_byte_lt : ∀ x, x < 256 → ((x &&& 0x3f) ||| 0x80) < 256 ∧
    ((x &&& 0x3f) ||| 0x80) / 64 = 2 := by
  decide

theorem range16 : List.range 16 = [0, 1, 2, 3, 4, 5, 6, 7, 8, 9, 10, 11, 12, 13, 14, 15] := by
  decide

theorem uuid4_spec (d : Draw) (u : UUID) (h : uuid4 d = .ok u) :
    u.length = 16 ∧ (∀ b ∈ u, b < 256) ∧ u.getD 6 0 / 16 = 4 ∧ u.getD 8 0 / 64 = 2 := by
  unfold uuid4 NewRandom at h
  cases hr : d.Read with
  | none => simp [hr, assert] at h
  | some bs =>
    simp only [hr, assert, range16, List.map_cons, List.map_nil] at h
    have h6 := version_byte_lt (bs.getD 6 0 % 256) (Nat.mod_lt _ (by norm_num))
    have h8 := variant_byte_lt (bs.getD 8 0 % 256) (Nat.mod_lt _ (by norm_num))
    have hm : ∀ i, bs.getD i 0 % 256 < 256 := fun i => Nat.mod_lt _ (by norm_num)
    simp at h
    subst h
    simp at h6 h8
    refine ⟨by simp, ?_, by simpa using h6.2, by simpa using h8.2⟩
    intro b hb
    simp at hb
    have := hm
    simp at this
    rcases hb with hb | hb | hb | hb | hb | hb | hb | hb | hb | hb | hb | hb | hb | hb | hb | hb <;>
      subst hb <;> first | exact this _ | exact h6.1 | exact h8.1

theorem uuid4_ok (d : Draw) (bs : List Nat) (h : d.Read = some bs) : ∃ u, uuid4 d = .ok u := by
  simp [uuid4, NewRandom, h, assert]

theorem mem_registered (t : GoType) : t ∈ registered ↔ t = .string ∨ t = .uint16 ∨ t = .UUID := by
  simp [registered, types]

theorem generator_spec (t : GoType) (d : Draw) (v : Value)
    (h : callGenerator (typesAt t).generator d = .ok v) :
    t ∈ registered ∧ wellGenerated t v ∧ TypeOf v = generatedType t := by
  cases t with
  | string =>
    cases hu : uuid4 d with
    | error e =>
      simp [typesAt, types, List.find?, callGenerator, stringGenerator, bind, Except.bind,
        hu] at h
    | ok u =>
      simp [typesAt, types, List.find?, callGenerator, stringGenerator, bind, Except.bind, hu,
        pure, Except.pure] at h
      subst h
      obtain ⟨h1, h2, -, -⟩ := uuid4_spec d u hu
      exact ⟨by simp [mem_registered], ⟨u, h1, h2, rfl⟩, rfl⟩
  | uint16 =>
    simp [typesAt, types, List.find?, callGenerator, uint16Generator] at h
    subst h
    refine ⟨by simp [mem_registered], ?_, rfl⟩
    simp only [wellGenerated]
    exact Nat.mod_lt _ (by norm_num)
  | uint64 => simp [typesAt, types, List.find?, callGenerator] at h
  | UUID =>
    cases hu : uuid4 d with
    | error e =>
      simp [typesAt, types, List.find?, callGenerator, uuidGenerator, bind, Except.bind, hu] at h
    | ok u =>
      simp [typesAt, types, List.find?, callGenerator, uuidGenerator, bind, Except.bind, hu,
        pure, Except.pure] at h
      subst h
      exact ⟨by simp [mem_registered], uuid4_spec d u hu, rfl⟩

theorem generator_ok (t : GoType) (ht : t ∈ registered) (d : Draw) (bs : List Nat)
    (h : d.Read = some bs) : ∃ v, callGenerator (typesAt t).generator d = .ok v := by
  obtain ⟨u, hu⟩ := uuid4_ok d bs h
  rcases (mem_registered t).mp ht with rfl | rfl | rfl
  · exact ⟨.string (UUID_String u), by
      simp [typesAt, types, List.find?, callGenerator, stringGenerator, hu, bind, Except.bind,
        pure, Except.pure]⟩
  · exact ⟨_, by simp [typesAt, types, List.find?, callGenerator, uint16Generator]; rfl⟩
  · exact ⟨.UUID u, by
      simp [typesAt, types, List.find?, callGenerator, uuidGenerator, hu, bind, Except.bind,
        pure, Except.pure]⟩

theorem extractor_roundtrip (t : GoType) (v dest : Value) (hv : wellGenerated t v)
    (hd : TypeOf dest = t) :
    ∃ dest', Call (typesAt t).extractor (Sprintf_v v) dest = .ok dest' ∧ TypeOf dest' = t ∧
      equalValues dest' v = true := by
  cases t <;> cases v <;> simp only [wellGenerated] at hv <;> cases dest <;>
    simp only [TypeOf, reduceCtorEq] at hd
  · rename_i s s0
    exact ⟨.string s, by simp [typesAt, types, List.find?, Call, stringExtractor, Sprintf_v],
      rfl, by simp [equalValues]⟩
  · rename_i n n0
    have hn : n < 2 ^ 64 := lt_trans hv (by norm_num)
    obtain ⟨hne, hdig, hval⟩ := FormatUint_spec n hn
    refine ⟨.uint16 n, ?_, rfl, by simp [equalValues]⟩
    have := uint16Extractor_digits (FormatUint n) n0 hne hdig (by rw [hval]; exact hn)
    rw [hval, Nat.mod_eq_of_lt (by norm_num at hv ⊢; exact hv)] at this
    simpa [typesAt, types, List.find?, Call, Sprintf_v] using this
  · rename_i u u0
    refine ⟨.UUID u, ?_, rfl, by simp [equalValues]⟩
    simp [typesAt, types, List.find?, Call, Sprintf_v, uuidExtractor, UUID_UnmarshalText,
      ParseBytes_String u hv.1 hv.2.1, assert, bind, Except.bind, pure, Except.pure]

/-! ## Go maps -/

theorem mapGet_mapSet {α : Type} (m : GoMap α) (k k' : GoString) (v : α) :
    mapGet (mapSet m k v) k' = if k = k' then some v else mapGet m k' := by
  induction m with
  | nil => simp [mapSet, mapGet]
  | cons e m ih =>
    obtain ⟨k0, v0⟩ := e
    by_cases h0 : k0 = k
    · subst h0
      by_cases h1 : k0 = k' <;> simp [mapSet, mapGet, h1]
    · by_cases h1 : k0 = k'
      · subst h1
        have : ¬ k = k0 := fun h => h0 h.symm
        simp [mapSet, mapGet, h0, this]
      · simp [mapSet, mapGet, h0, h1, ih]

theorem mem_mapKeys_mapSet {α : Type} (m : GoMap α) (k k' : GoString) (v : α) :
    k' ∈ mapKeys (mapSet m k v) ↔ k' = k ∨ k' ∈ mapKeys m := by
  induction m with
  | nil => simp [mapSet, mapKeys]
  | cons e m ih =>
    obtain ⟨k0, v0⟩ := e
    by_cases h0 : k0 = k
    · subst h0
      simp [mapSet, mapKeys]
    · simp only [mapKeys] at ih
      simp only [mapSet, h0, if_false, mapKeys, List.map_cons, List.mem_cons, ih]
      tauto

theorem mapSet_of_not_mem {α : Type} (m : GoMap α) (k : GoString) (v : α)
    (h : k ∉ mapKeys m) : mapSet m k v = m ++ [(k, v)] := by
  induction m with
  | nil => simp [mapSet]
  | cons e m ih =>
    obtain ⟨k0, v0⟩ := e
    simp only [mapKeys, List.map_cons, List.mem_cons, not_or] at h
    have h0 : ¬ k0 = k := fun e => h.1 e.symm
    simp only [mapSet, h0, if_false, List.cons_append]
    rw [ih (by simpa [mapKeys] using h.2)]

theorem mapKeys_mapSet_of_mem {α : Type} (m : GoMap α) (k : GoString) (v : α)
    (h : k ∈ mapKeys m) : mapKeys (mapSet m k v) = mapKeys m := by
  induction m with
  | nil => simp [mapKeys] at h
  | cons e m ih =>
    obtain ⟨k0, v0⟩ := e
    by_cases h0 : k0 = k
    · subst h0
      simp [mapSet, mapKeys]
    · have hk : k ∈ mapKeys m := by
        simp only [mapKeys, List.map_cons, List.mem_cons] at h
        rcases h with h | h
        · exact absurd h.symm h0
        · exact h
      have := ih hk
      simp only [mapKeys] at this
      simp [mapSet, h0, mapKeys, this]

theorem nodup_mapKeys_mapSet {α : Type} (m : GoMap α) (k : GoString) (v : α)
    (h : (mapKeys m).Nodup) : (mapKeys (mapSet m k v)).Nodup := by
  by_cases hk : k ∈ mapKeys m
  · rw [mapKeys_mapSet_of_mem m k v hk]
    exact h
  · rw [mapSet_of_not_mem m k v hk]
    simp only [mapKeys, List.map_append, List.map_cons, List.map_nil]
    rw [List.nodup_append]
    refine ⟨h, by simp, ?_⟩
    intro a ha hb
    simp only [List.mem_singleton] at hb
    subst hb
    exact hk ha

theorem mapGet_eq_none {α : Type} (m : GoMap α) (k : GoString) :
    mapGet m k = none ↔ k ∉ mapKeys m := by
  induction m with
  | nil => simp [mapGet, mapKeys]
  | cons e m ih =>
    obtain ⟨k0, v0⟩ := e
    by_cases h0 : k0 = k
    · subst h0
      simp [mapGet, mapKeys]
    · have h1 : ¬ k = k0 := fun e => h0 e.symm
      simp only [mapKeys] at ih
      simp [mapGet, mapKeys, h0, h1, ih]

theorem mapGet_eq_some {α : Type} (m : GoMap α) (k : GoString) (v : α)
    (h : (mapKeys m).Nodup) : mapGet m k = some v ↔ (k, v) ∈ m := by
  induction m with
  | nil => simp [mapGet]
  | cons e m ih =>
    obtain ⟨k0, v0⟩ := e
    simp only [mapKeys, List.map_cons, List.nodup_cons] at h
    by_cases h0 : k0 = k
    · subst h0
      have : ∀ w, (k0, w) ∉ m := fun w hw => h.1 (List.mem_map.mpr ⟨(k0, w), hw, rfl⟩)
      simp only [mapGet, if_true, Option.some.injEq, List.mem_cons, Prod.mk.injEq, true_and,
        this, or_false]
      exact eq_comm
    · have h1 : ¬ k = k0 := fun e => h0 e.symm
      simp [mapGet, h0, h1, ih h.2]

/-! ## The schema builder -/

section SchemaLoop

variable (L : Libs) (oTypes : List GoType) (babble : Nat → GoString) (intn : Nat → Nat)

theorem schemaLoop_fields (N : Nat) :
    (schemaLoop L oTypes babble intn N).1 = (List.range N).map (fieldAt L oTypes babble intn) := by
  induction N with
  | zero => simp [schemaLoop]
  | succ N ih => simp [schemaLoop, ih, List.range_succ]

theorem schemaLoop_nodup (N : Nat) : (mapKeys (schemaLoop L oTypes babble intn N).2).Nodup := by
  induction N with
  | zero => simp [schemaLoop, mapKeys]
  | succ N ih => exact nodup_mapKeys_mapSet _ _ _ ih

theorem schemaLoop_mem_keys (N : Nat) (k : GoString) :
    k ∈ mapKeys (schemaLoop L oTypes babble intn N).2 ↔ ∃ i, i < N ∧ jsonTagAt L babble i = k := by
  induction N with
  | zero => simp [schemaLoop, mapKeys]
  | succ N ih =>
    simp only [schemaLoop, mem_mapKeys_mapSet, ih]
    constructor
    · rintro (h | ⟨i, hi, hk⟩)
      · exact ⟨N, Nat.lt_succ_self N, h.symm⟩
      · exact ⟨i, Nat.lt_succ_of_lt hi, hk⟩
    · rintro ⟨i, hi, hk⟩
      rcases Nat.lt_succ_iff_lt_or_eq.mp hi with h | h
      · exact Or.inr ⟨i, h, hk⟩
      · subst h
        exact Or.inl hk.symm

theorem schemaLoop_get (N : Nat) (k : GoString) (i : Nat) :
    mapGet (schemaLoop L oTypes babble intn N).2 k = some i ↔
      i < N ∧ jsonTagAt L babble i = k ∧ ∀ j, j < N → jsonTagAt L babble j = k → j ≤ i := by
  induction N generalizing i with
  | zero => simp [schemaLoop, mapGet]
  | succ N ih =>
    simp only [schemaLoop, mapGet_mapSet]
    by_cases hk : jsonTagAt L babble N = k
    · simp only [hk, if_true, Option.some.injEq]
      constructor
      · intro h
        subst h
        exact ⟨Nat.lt_succ_self _, hk, fun j hj _ => Nat.lt_succ_iff.mp hj⟩
      · rintro ⟨hi, -, hmax⟩
        have := hmax N (Nat.lt_succ_self _) hk
        omega
    · simp only [hk, if_false, ih]
      constructor
      · rintro ⟨hi, hki, hmax⟩
        refine ⟨Nat.lt_succ_of_lt hi, hki, fun j hj hkj => ?_⟩
        rcases Nat.lt_succ_iff_lt_or_eq.mp hj with h | h
        · exact hmax j h hkj
        · subst h
          exact absurd hkj hk
      · rintro ⟨hi, hki, hmax⟩
        have hne : i ≠ N := fun e => hk (e ▸ hki)
        exact ⟨by omega, hki, fun j hj hkj => hmax j (Nat.lt_succ_of_lt hj) hkj⟩

theorem schemaLoop_distinct (N : Nat)
    (hinj : ∀ i j, i < N → j < N → jsonTagAt L babble i = jsonTagAt L babble j → i = j) :
    (schemaLoop L oTypes babble intn N).2 = (List.range N).map (fun i => (jsonTagAt L babble i, i)) := by
  induction N with
  | zero => simp [schemaLoop]
  | succ N ih =>
    have ih' := ih (fun i j hi hj => hinj i j (Nat.lt_succ_of_lt hi) (Nat.lt_succ_of_lt hj))
    have hnot : jsonTagAt L babble N ∉ mapKeys (schemaLoop L oTypes babble intn N).2 := by
      rw [schemaLoop_mem_keys]
      rintro ⟨i, hi, hk⟩
      have := hinj i N (Nat.lt_succ_of_lt hi) (Nat.lt_succ_self _) hk
      omega
    simp only [schemaLoop]
    rw [mapSet_of_not_mem _ _ _ hnot, ih']
    simp [List.range_succ]

end SchemaLoop

/-! ## The struct type -/

theorem structOfLoop_ok_iff (L : Libs) (fs : List StructField) (fset : List GoString) :
    structOfLoop L fs fset = .ok () ↔
      (∀ f ∈ fs, L.validFieldName f.Name = true) ∧ (fs.map (fun f => f.Name)).Nodup ∧
        ∀ f ∈ fs, f.Name ∉ fset := by
  induction fs generalizing fset with
  | nil => simp [structOfLoop]
  | cons f fs ih =>
    by_cases hv : L.validFieldName f.Name = true
    · by_cases hm : f.Name ∈ fset
      · simp [structOfLoop, hv, hm]
      · simp only [structOfLoop, hv, Bool.not_true, Bool.false_eq_true, if_false, hm, ih,
          List.mem_cons, forall_eq_or_imp, true_and, List.map_cons, List.nodup_cons,
          List.mem_map, not_exists, not_and, not_false_eq_true, not_or]
        constructor
        · rintro ⟨h1, h2, h3⟩
          exact ⟨h1, ⟨fun x hx e => (h3 x hx).1 e, h2⟩, fun x hx => (h3 x hx).2⟩
        · rintro ⟨h1, ⟨h2, h3⟩, h4⟩
          exact ⟨h1, h3, fun x hx => ⟨fun e => h2 x hx e, h4 x hx⟩⟩
    · simp [structOfLoop, hv]

theorem structOfLoop_panics (L : Libs) (fs : List StructField) (fset : List GoString) :
    structOfLoop L fs fset = .ok () ∨ ∃ r, structOfLoop L fs fset = .error (.panicked r) := by
  induction fs generalizing fset with
  | nil => simp [structOfLoop]
  | cons f fs ih =>
    by_cases hv : L.validFieldName f.Name = true
    · by_cases hm : f.Name ∈ fset
      · simp [structOfLoop, hv, hm]
      · simpa [structOfLoop, hv, hm] using ih (f.Name :: fset)
    · simp [structOfLoop, hv]

section BuildSchema

variable (L : Libs) (oTypes : List GoType) (babble : Nat → GoString) (intn : Nat → Nat)

theorem buildSchema_ok_iff (N : Nat) (S : Schema) :
    buildSchema L oTypes babble intn N = .ok S ↔
      structOfLoop L (schemaLoop L oTypes babble intn N).1 [] = .ok () ∧
        S = ⟨(schemaLoop L oTypes babble intn N).1, (schemaLoop L oTypes babble intn N).2⟩ := by
  simp only [buildSchema, StructOf, bind, Except.bind, pure, Except.pure]
  cases h : structOfLoop L (schemaLoop L oTypes babble intn N).1 [] with
  | error e => simp
  | ok u =>
    simp only [Except.ok.injEq, true_and]
    exact eq_comm

theorem buildSchema_panics (N : Nat) :
    (∃ S, buildSchema L oTypes babble intn N = .ok S) ∨
      ∃ r, buildSchema L oTypes babble intn N = .error (.panicked r) := by
  rcases structOfLoop_panics L (schemaLoop L oTypes babble intn N).1 [] with h | ⟨r, h⟩
  · exact Or.inl ⟨_, (buildSchema_ok_iff L oTypes babble intn N _).mpr ⟨h, rfl⟩⟩
  · exact Or.inr ⟨r, by simp [buildSchema, StructOf, bind, Except.bind, h]⟩

theorem fieldAt_name_congr (i j : Nat) (h : jsonTagAt L babble i = jsonTagAt L babble j) :
    (fieldAt L oTypes babble intn i).Name = (fieldAt L oTypes babble intn j).Name := by
  simp [fieldAt, h]

theorem buildSchema_keys_distinct (N : Nat) (S : Schema)
    (h : buildSchema L oTypes babble intn N = .ok S) :
    ∀ i j, i < N → j < N → jsonTagAt L babble i = jsonTagAt L babble j → i = j := by
  obtain ⟨hs, -⟩ := (buildSchema_ok_iff L oTypes babble intn N S).mp h
  obtain ⟨-, hnd, -⟩ := (structOfLoop_ok_iff L _ _).mp hs
  rw [schemaLoop_fields, List.map_map] at hnd
  intro i j hi hj hk
  exact List.inj_on_of_nodup_map hnd (List.mem_range.mpr hi) (List.mem_range.mpr hj)
    (fieldAt_name_congr L oTypes babble intn i j hk)

theorem buildSchema_spec (N : Nat) (S : Schema)
    (h : buildSchema L oTypes babble intn N = .ok S) :
    S.typ = (List.range N).map (fieldAt L oTypes babble intn) ∧
      S.jsonTags = (List.range N).map (fun i => (jsonTagAt L babble i, i)) := by
  have hd := buildSchema_keys_distinct L oTypes babble intn N S h
  obtain ⟨-, rfl⟩ := (buildSchema_ok_iff L oTypes babble intn N S).mp h
  exact ⟨schemaLoop_fields L oTypes babble intn N, schemaLoop_distinct L oTypes babble intn N hd⟩

theorem buildSchema_duplicate (N i j : Nat) (hij : i < j) (hj : j < N)
    (hk : jsonTagAt L babble i = jsonTagAt L babble j) :
    ∃ r, buildSchema L oTypes babble intn N = .error (.panicked r) := by
  rcases buildSchema_panics L oTypes babble intn N with ⟨S, h⟩ | h
  · have := buildSchema_keys_distinct L oTypes babble intn N S h i j (by omega) hj hk
    omega
  · exact h

end BuildSchema

/-! ## The fill loops -/

theorem Field_eq_ok {α : Type} (l : List α) (i : Nat) (a : α) :
    Field l i = .ok a ↔ l.get? i = some a := by
  unfold Field
  cases h : l.get? i <;> simp

theorem generateItem_eq (typ : List StructField) (it : List (GoString × Nat))
    (draws : Nat → Draw) (item : GoMap Value) (R : List (GoString × Value))
    (h : genEntries typ it draws = .ok R) :
    generateItem typ it draws item = .ok (assignAll item R) := by
  induction it generalizing draws item R with
  | nil =>
    simp [genEntries] at h
    subst h
    simp [generateItem, assignAll]
  | cons e it ih =>
    obtain ⟨k, i⟩ := e
    simp only [genEntries, bind, Except.bind] at h
    cases hf : Field typ i with
    | error e => simp [hf] at h
    | ok f =>
      simp only [hf] at h
      cases hv : callGenerator (typesAt f.Typ).generator (draws 0) with
      | error e => simp [hv] at h
      | ok v =>
        simp only [hv] at h
        cases hr : genEntries typ it (fun j => draws (j + 1)) with
        | error e => simp [hr] at h
        | ok rest =>
          simp [hr, pure, Except.pure] at h
          subst h
          simp only [generateItem, bind, Except.bind, hf, hv]
          rw [ih _ _ _ hr]
          simp [assignAll]

theorem fillKV_eq (typ : List StructField) (it : List (GoString × Nat))
    (draws : Nat → Draw) (item : List GoString) (R : List (GoString × Value))
    (h : genEntries typ it draws = .ok R) :
    fillKV typ it draws item = .ok (item ++ flatten R) := by
  induction it generalizing draws item R with
  | nil =>
    simp [genEntries] at h
    subst h
    simp [fillKV, flatten]
  | cons e it ih =>
    obtain ⟨k, i⟩ := e
    simp only [genEntries, bind, Except.bind] at h
    cases hf : Field typ i with
    | error e => simp [hf] at h
    | ok f =>
      simp only [hf] at h
      cases hv : callGenerator (typesAt f.Typ).generator (draws 0) with
      | error e => simp [hv] at h
      | ok v =>
        simp only [hv] at h
        cases hr : genEntries typ it (fun j => draws (j + 1)) with
        | error e => simp [hr] at h
        | ok rest =>
          simp [hr, pure, Except.pure] at h
          subst h
          simp only [fillKV, bind, Except.bind, hf, hv]
          rw [ih _ _ _ hr]
          simp [flatten]

/-- A fill loop that returns has generated a record. -/
theorem fillKV_ok (typ : List StructField) (it : List (GoString × Nat))
    (draws : Nat → Draw) (item item' : List GoString)
    (h : fillKV typ it draws item = .ok item') : ∃ R, genEntries typ it draws = .ok R := by
  induction it generalizing draws item item' with
  | nil => exact ⟨[], rfl⟩
  | cons e it ih =>
    obtain ⟨k, i⟩ := e
    simp only [fillKV, bind, Except.bind] at h
    cases hf : Field typ i with
    | error e => simp [hf] at h
    | ok f =>
      simp only [hf] at h
      cases hv : callGenerator (typesAt f.Typ).generator (draws 0) with
      | error e => simp [hv] at h
      | ok v =>
        simp only [hv] at h
        obtain ⟨R, hR⟩ := ih _ _ _ h
        exact ⟨(k, v) :: R, by simp [genEntries, bind, Except.bind, hf, hv, hR, pure, Except.pure]⟩

theorem genEntries_spec (typ : List StructField) (it : List (GoString × Nat))
    (draws : Nat → Draw) (R : List (GoString × Value)) (h : genEntries typ it draws = .ok R) :
    List.Forall₂ (fun (e : GoString × Value) (ki : GoString × Nat) => e.1 = ki.1 ∧
      ∃ f d, typ.get? ki.2 = some f ∧ callGenerator (typesAt f.Typ).generator d = .ok e.2) R it := by
  induction it generalizing draws R with
  | nil =>
    simp [genEntries] at h
    subst h
    exact List.Forall₂.nil
  | cons e it ih =>
    obtain ⟨k, i⟩ := e
    simp only [genEntries, bind, Except.bind] at h
    cases hf : Field typ i with
    | error e => simp [hf] at h
    | ok f =>
      simp only [hf] at h
      cases hv : callGenerator (typesAt f.Typ).generator (draws 0) with
      | error e => simp [hv] at h
      | ok v =>
        simp only [hv] at h
        cases hr : genEntries typ it (fun j => draws (j + 1)) with
        | error e => simp [hr] at h
        | ok rest =>
          simp [hr, pure, Except.pure] at h
          subst h
          exact List.Forall₂.cons ⟨rfl, f, draws 0, (Field_eq_ok _ _ _).mp hf, hv⟩ (ih _ _ hr)

theorem genEntries_total (typ : List StructField) (it : List (GoString × Nat))
    (draws : Nat → Draw)
    (hit : ∀ ki ∈ it, ∃ f, typ.get? ki.2 = some f ∧ f.Typ ∈ registered)
    (hd : ∀ j, (draws j).Read ≠ none) : ∃ R, genEntries typ it draws = .ok R := by
  induction it generalizing draws with
  | nil => exact ⟨[], rfl⟩
  | cons e it ih =>
    obtain ⟨k, i⟩ := e
    obtain ⟨f, hf, hreg⟩ := hit (k, i) (List.mem_cons_self _ _)
    obtain ⟨bs, hbs⟩ := Option.ne_none_iff_exists'.mp (hd 0)
    obtain ⟨v, hv⟩ := generator_ok f.Typ hreg (draws 0) bs hbs
    obtain ⟨R, hR⟩ := ih (fun j => draws (j + 1)) (fun ki h => hit ki (List.mem_cons_of_mem _ h))
      (fun j => hd (j + 1))
    exact ⟨(k, v) :: R, by
      simp [genEntries, bind, Except.bind, (Field_eq_ok _ _ _).mpr hf, hv, hR, pure, Except.pure]⟩

/-! ## Claims on the schema builder -/

theorem fieldAt_registered (L : Libs) (oTypes : List GoType) (babble : Nat → GoString)
    (intn : Nat → Nat) (hT : oTypes.Perm registered) (i : Nat) :
    (fieldAt L oTypes babble intn i).Typ ∈ registered := by
  have hlen : oTypes.length = 3 := by
    rw [hT.length_eq]
    rfl
  have hlt : intn i % oTypes.length < oTypes.length := Nat.mod_lt _ (by omega)
  simp only [fieldAt]
  rw [List.getD_eq_getElem _ _ hlt]
  exact hT.subset (List.getElem_mem _)

/-- C3: for every field count `N` and every sequence of names the builder
loop yields exactly `N` field specs, each of a kind registered in the type
table, and when the `N` wire keys are pairwise distinct the map from name to
index has exactly `N` entries and maps the `i`-th key to `i`. -/
theorem C3_schema_size_and_uniqueness (L : Libs) (oTypes : List GoType)
    (babble : Nat → GoString) (intn : Nat → Nat) (N : Nat) (hT : oTypes.Perm registered) :
    (schemaLoop L oTypes babble intn N).1.length = N ∧
      (∀ f ∈ (schemaLoop L oTypes babble intn N).1, f.Typ ∈ registered) ∧
      ((∀ i j, i < N → j < N → jsonTagAt L babble i = jsonTagAt L babble j → i = j) →
        (schemaLoop L oTypes babble intn N).2.length = N ∧
          ∀ i, i < N →
            mapGet (schemaLoop L oTypes babble intn N).2 (jsonTagAt L babble i) = some i) := by
  refine ⟨by simp [schemaLoop_fields], ?_, ?_⟩
  · intro f hf
    rw [schemaLoop_fields, List.mem_map] at hf
    obtain ⟨i, -, rfl⟩ := hf
    exact fieldAt_registered L oTypes babble intn hT i
  · intro hinj
    refine ⟨by simp [schemaLoop_distinct L oTypes babble intn N hinj], fun i hi => ?_⟩
    rw [schemaLoop_get]
    exact ⟨hi, rfl, fun j hj hk => le_of_eq (hinj j i hj hi hk)⟩

/-- C3, witness: two distinct phrases give two field specs and a map of two
entries, alpha at 0 and beta at 1. -/
theorem C3_witness :
    registered.Perm registered ∧
      (schemaLoop asciiLibs registered sampleBabble sampleIntn 2).1.length = 2 ∧
      (∀ f ∈ (schemaLoop asciiLibs registered sampleBabble sampleIntn 2).1, f.Typ ∈ registered) ∧
      (schemaLoop asciiLibs registered sampleBabble sampleIntn 2).2.length = 2 ∧
      ∀ i, i < 2 →
        mapGet (schemaLoop asciiLibs registered sampleBabble sampleIntn 2).2
          (jsonTagAt asciiLibs sampleBabble i) = some i :=
  have h := C3_schema_size_and_uniqueness asciiLibs registered sampleBabble sampleIntn 2
    (List.Perm.refl _)
  ⟨List.Perm.refl _, h.1, h.2.1, h.2.2 (by
    intro i j hi hj
    interval_cases i <;> interval_cases j <;> decide)⟩

/-- C8, as the code has it: for every sequence of `N` wire keys the map from
name to index has one entry per distinct key and maps each key to the largest
position at which it was drawn, and the list of field specs has `N` entries;
the loop raises no error for a duplicate, but the construction of the struct
type that ends the builder (`reflect.StructOf`, main.go 85) panics whenever a
key was drawn twice. -/
theorem C8_last_write_wins (L : Libs) (oTypes : List GoType) (babble : Nat → GoString)
    (intn : Nat → Nat) (N : Nat) :
    (schemaLoop L oTypes babble intn N).1.length = N ∧
      (mapKeys (schemaLoop L oTypes babble intn N).2).Nodup ∧
      (∀ k, k ∈ mapKeys (schemaLoop L oTypes babble intn N).2 ↔
        ∃ i, i < N ∧ jsonTagAt L babble i = k) ∧
      (∀ k i, mapGet (schemaLoop L oTypes babble intn N).2 k = some i ↔
        i < N ∧ jsonTagAt L babble i = k ∧ ∀ j, j < N → jsonTagAt L babble j = k → j ≤ i) ∧
      (∀ i j, i < j → j < N → jsonTagAt L babble i = jsonTagAt L babble j →
        ∃ r, buildSchema L oTypes babble intn N = .error (.panicked r)) :=
  ⟨by simp [schemaLoop_fields], schemaLoop_nodup L oTypes babble intn N,
    schemaLoop_mem_keys L oTypes babble intn N, schemaLoop_get L oTypes babble intn N,
    fun i j hij hj hk => buildSchema_duplicate L oTypes babble intn N i j hij hj hk⟩

/-- C8, counterexample: the same phrase drawn for both of two fields leaves
one entry in the map, at position 1, and two field specs, and the builder
ends in the panic of `reflect.StructOf` for the duplicate field. -/
theorem C8_counterexample :
    (schemaLoop asciiLibs registered sameBabble sampleIntn 2).2 = [(ascii "red_fox_den", 1)] ∧
      (schemaLoop asciiLibs registered sameBabble sampleIntn 2).1.map (fun f => f.Name)
        = [ascii "RedFoxDen", ascii "RedFoxDen"] ∧
      buildSchema asciiLibs registered sameBabble sampleIntn 2
        = .error (.panicked "reflect.StructOf: duplicate field") := by
  decide

/-! ## Claims on the extractors -/

/-- C9: for every string of decimal digits that denotes a number `n` below
`2 ^ 64` the `uint16` extractor does not fail and stores `n mod 65536`; the
string 65536, which is outside the range of the kind, is stored as 0. -/
theorem C9_uint16_extractor_truncates (src : GoString) (n dest : Nat) (hne : src ≠ [])
    (hdig : allDigits src) (hval : decimalValue src = n) (hn : n < 2 ^ 64) :
    Call (typesAt .uint16).extractor src (.uint16 dest) = .ok (.uint16 (n % 65536)) ∧
      Call (typesAt .uint16).extractor (ascii "65536") (.uint16 dest) = .ok (.uint16 0) := by
  subst hval
  have h := uint16Extractor_digits src dest hne hdig hn
  refine ⟨by simpa [typesAt, types, List.find?, Call] using h, ?_⟩
  simp only [typesAt, types, List.find?, Call]
  simp only [reduceCtorEq, decide_False, decide_True]
  rfl

/-- C9, witness: the digits 0070000 denote 70000, and 4464 is stored. -/
theorem C9_witness :
    (ascii "0070000" ≠ [] ∧ allDigits (ascii "0070000") ∧ decimalValue (ascii "0070000") = 70000 ∧
      70000 < 2 ^ 64) ∧
    (Call (typesAt .uint16).extractor (ascii "0070000") (.uint16 7) = .ok (.uint16 (70000 % 65536)) ∧
      Call (typesAt .uint16).extractor (ascii "65536") (.uint16 7) = .ok (.uint16 0)) :=
  ⟨⟨by decide, by decide, by decide, by decide⟩,
    C9_uint16_extractor_truncates (ascii "0070000") 70000 7 (by decide) (by decide) (by decide)
      (by decide)⟩

/-! ## The entries of a schema and the records generated from it -/

theorem forall₂_fst_eq {α β γ : Type} {P : α × β → α × γ → Prop} {R : List (α × β)}
    {it : List (α × γ)} (h : List.Forall₂ (fun e ki => e.1 = ki.1 ∧ P e ki) R it) :
    R.map Prod.fst = it.map Prod.fst := by
  induction h with
  | nil => rfl
  | cons h _ ih => simp [h.1, ih]

theorem forall₂_mem_left {α β : Type} {P : α → β → Prop} {R : List α} {it : List β}
    (h : List.Forall₂ P R it) : ∀ e ∈ R, ∃ ki ∈ it, P e ki := by
  induction h with
  | nil => simp
  | cons h _ ih =>
    intro e he
    rcases List.mem_cons.mp he with rfl | he
    · exact ⟨_, List.mem_cons_self _ _, h⟩
    · obtain ⟨ki, hki, hp⟩ := ih e he
      exact ⟨ki, List.mem_cons_of_mem _ hki, hp⟩

theorem forall₂_mem_right {α β : Type} {P : α → β → Prop} {R : List α} {it : List β}
    (h : List.Forall₂ P R it) : ∀ ki ∈ it, ∃ e ∈ R, P e ki := by
  induction h with
  | nil => simp
  | cons h _ ih =>
    intro ki hki
    rcases List.mem_cons.mp hki with rfl | hki
    · exact ⟨_, List.mem_cons_self _ _, h⟩
    · obtain ⟨e, he, hp⟩ := ih ki hki
      exact ⟨e, List.mem_cons_of_mem _ he, hp⟩

theorem assignAll_eq_append (item : GoMap Value) (R : List (GoString × Value))
    (hnd : (R.map Prod.fst).Nodup) (hdis : ∀ k ∈ R.map Prod.fst, k ∉ mapKeys item) :
    assignAll item R = item ++ R := by
  induction R generalizing item with
  | nil => simp [assignAll]
  | cons e R ih =>
    obtain ⟨k, v⟩ := e
    simp only [List.map_cons, List.nodup_cons] at hnd
    have hk : k ∉ mapKeys item := hdis k (by simp)
    have hstep : assignAll item ((k, v) :: R) = assignAll (mapSet item k v) R := by
      simp [assignAll]
    rw [hstep, mapSet_of_not_mem item k v hk, ih _ hnd.2, List.append_assoc]
    · rfl
    · intro k' hk' hmem
      simp only [mapKeys, List.map_append, List.map_cons, List.map_nil, List.mem_append,
        List.mem_singleton] at hmem
      rcases hmem with hmem | hmem
      · exact hdis k' (by simp [List.mem_map] at hk' ⊢; exact Or.inr hk') hmem
      · subst hmem
        exact hnd.1 hk'

section Entries

variable (L : Libs) (oTypes : List GoType) (babble : Nat → GoString) (intn : Nat → Nat)

theorem schema_typ_get (N : Nat) (S : Schema) (h : buildSchema L oTypes babble intn N = .ok S)
    (i : Nat) (hi : i < N) : S.typ.get? i = some (fieldAt L oTypes babble intn i) := by
  rw [(buildSchema_spec L oTypes babble intn N S h).1]
  simp [List.getElem?_range, hi]

theorem schema_entries (N : Nat) (S : Schema) (h : buildSchema L oTypes babble intn N = .ok S)
    (it : List (GoString × Nat)) (hit : it.Perm S.jsonTags) :
    (∀ ki ∈ it, ki.2 < N ∧ ki.1 = jsonTagAt L babble ki.2 ∧
        S.typ.get? ki.2 = some (fieldAt L oTypes babble intn ki.2)) ∧
      (it.map Prod.snd).Perm (List.range N) ∧ (it.map Prod.fst).Nodup ∧ it.length = N := by
  have hs := (buildSchema_spec L oTypes babble intn N S h).2
  refine ⟨?_, ?_, ?_, ?_⟩
  · intro ki hki
    have hm : ki ∈ S.jsonTags := hit.subset hki
    rw [hs, List.mem_map] at hm
    obtain ⟨i, hi, rfl⟩ := hm
    have hi' := List.mem_range.mp hi
    exact ⟨hi', rfl, schema_typ_get L oTypes babble intn N S h i hi'⟩
  · have := hit.map Prod.snd
    rw [hs, List.map_map] at this
    simpa [Function.comp_def] using this
  · have hnd : (mapKeys S.jsonTags).Nodup := by
      obtain ⟨-, rfl⟩ := (buildSchema_ok_iff L oTypes babble intn N S).mp h
      exact schemaLoop_nodup L oTypes babble intn N
    exact (hit.map Prod.fst).nodup_iff.mpr hnd
  · rw [hit.length_eq, hs]
    simp

theorem schema_get (N : Nat) (S : Schema) (h : buildSchema L oTypes babble intn N = .ok S)
    (k : GoString) (i : Nat) :
    mapGet S.jsonTags k = some i ↔ i < N ∧ jsonTagAt L babble i = k := by
  have hd := buildSchema_keys_distinct L oTypes babble intn N S h
  obtain ⟨-, rfl⟩ := (buildSchema_ok_iff L oTypes babble intn N S).mp h
  rw [schemaLoop_get]
  constructor
  · rintro ⟨h1, h2, -⟩
    exact ⟨h1, h2⟩
  · rintro ⟨h1, h2⟩
    exact ⟨h1, h2, fun j hj hk => le_of_eq (hd j i hj h1 (hk.trans h2.symm))⟩

end Entries

/-! ## Claims on the generated record -/

/-- C6, as the code has it: for every schema the record generator returns a
mapping whose key set is exactly the set of wire keys of the schema, and the
value under each key is produced by the generator registered for the kind of
that key's field: a string for `string`, a UUID for `uuid.UUID`, and for
`uint16` an unsigned integer below 65536 whose Go type is `uint64`, not the
kind's own type. -/
theorem C6_generated_record (L : Libs) (oTypes : List GoType) (babble : Nat → GoString)
    (intn : Nat → Nat) (N : Nat) (S : Schema) (it : List (GoString × Nat)) (draws : Nat → Draw)
    (hS : buildSchema L oTypes babble intn N = .ok S) (hT : oTypes.Perm registered)
    (hit : it.Perm S.jsonTags) (hd : ∀ j, (draws j).Read ≠ none) :
    ∃ item, generateItem S.typ it draws [] = .ok item ∧ (mapKeys item).Nodup ∧
      (∀ k, k ∈ mapKeys item ↔ k ∈ mapKeys S.jsonTags) ∧
      ∀ k i, mapGet S.jsonTags k = some i →
        ∃ f v d, S.typ.get? i = some f ∧ mapGet item k = some v ∧
          callGenerator (typesAt f.Typ).generator d = .ok v ∧ wellGenerated f.Typ v ∧
          TypeOf v = generatedType f.Typ := by
  obtain ⟨hent, -, hnd, -⟩ := schema_entries L oTypes babble intn N S hS it hit
  have hreg : ∀ ki ∈ it, ∃ f, S.typ.get? ki.2 = some f ∧ f.Typ ∈ registered := fun ki hki =>
    ⟨_, (hent ki hki).2.2, fieldAt_registered L oTypes babble intn hT ki.2⟩
  obtain ⟨R, hR⟩ := genEntries_total S.typ it draws hreg hd
  have hspec := genEntries_spec S.typ it draws R hR
  have hkeys : R.map Prod.fst = it.map Prod.fst := forall₂_fst_eq hspec
  have hRnd : (R.map Prod.fst).Nodup := hkeys ▸ hnd
  have hitem : assignAll [] R = R := by
    rw [assignAll_eq_append [] R hRnd (by simp [mapKeys])]
    rfl
  have hSnd : (mapKeys S.jsonTags).Nodup := (hit.map Prod.fst).nodup_iff.mp hnd
  refine ⟨R, by rw [generateItem_eq S.typ it draws [] R hR, hitem], hRnd, ?_, ?_⟩
  · intro k
    simp only [mapKeys]
    rw [hkeys]
    exact (hit.map Prod.fst).mem_iff
  · intro k i hki
    have hmem : (k, i) ∈ it := hit.symm.subset ((mapGet_eq_some _ _ _ hSnd).mp hki)
    obtain ⟨e, he, hk, f, d, hf, hg⟩ := forall₂_mem_right hspec (k, i) hmem
    obtain ⟨-, hw, ht⟩ := generator_spec f.Typ d e.2 hg
    refine ⟨f, e.2, d, hf, ?_, hg, hw, ht⟩
    rw [mapGet_eq_some _ _ _ hRnd]
    simp only at hk
    rw [← hk]
    exact he

theorem sampleSchema_built :
    buildSchema asciiLibs registered sampleBabble sampleIntn 2 = .ok sampleSchema := by
  decide

/-- C6, witness: the statement at the sample schema, for a random source
that delivers. -/
theorem C6_witness :
    (buildSchema asciiLibs registered sampleBabble sampleIntn 2 = .ok sampleSchema ∧
      registered.Perm registered ∧ sampleSchema.jsonTags.Perm sampleSchema.jsonTags ∧
      ∀ j : Nat, ((fun _ => sampleDraw) j).Read ≠ none) ∧
    ∃ item, generateItem sampleSchema.typ sampleSchema.jsonTags (fun _ => sampleDraw) [] = .ok item ∧
      (mapKeys item).Nodup ∧
      (∀ k, k ∈ mapKeys item ↔ k ∈ mapKeys sampleSchema.jsonTags) ∧
      ∀ k i, mapGet sampleSchema.jsonTags k = some i →
        ∃ f v d, sampleSchema.typ.get? i = some f ∧ mapGet item k = some v ∧
          callGenerator (typesAt f.Typ).generator d = .ok v ∧ wellGenerated f.Typ v ∧
          TypeOf v = generatedType f.Typ :=
  ⟨⟨sampleSchema_built, List.Perm.refl _, List.Perm.refl _, fun _ => (by decide : sampleDraw.Read ≠ none)⟩,
    C6_generated_record asciiLibs registered sampleBabble sampleIntn 2 sampleSchema
      sampleSchema.jsonTags (fun _ => sampleDraw) sampleSchema_built (List.Perm.refl _)
      (List.Perm.refl _) (fun _ => (by decide : sampleDraw.Read ≠ none))⟩

/-- C6, counterexample: in the record generated for the sample schema the
value under alpha, a field of kind `uint16`, is the `uint64` 42: its type is
not the type of the kind. -/
theorem C6_counterexample :
    generateItem sampleSchema.typ sampleSchema.jsonTags sampleDraws []
      = .ok [(ascii "alpha", .uint64 42),
          (ascii "beta", .string (ascii "f47ac10b-58cc-4372-a567-0e02b2c3d479"))] ∧
      sampleSchema.typ.map (fun f => f.Typ) = [.uint16, .string] ∧
      TypeOf (.uint64 42) ≠ .uint16 := by
  decide

/-! ## Claims on the K/V encoding -/

theorem flatten_length (R : List (GoString × Value)) : (flatten R).length = 2 * R.length := by
  induction R with
  | nil => rfl
  | cons e R ih =>
    obtain ⟨k, v⟩ := e
    simp only [flatten, List.length_cons, ih]
    omega

theorem flatten_get_even (R : List (GoString × Value)) (j : Nat) :
    (flatten R).get? (2 * j) = (R.get? j).map Prod.fst := by
  induction R generalizing j with
  | nil => simp [flatten]
  | cons e R ih =>
    obtain ⟨k, v⟩ := e
    cases j with
    | zero => simp [flatten]
    | succ j =>
      have : 2 * (j + 1) = 2 * j + 1 + 1 := by omega
      rw [this]
      simpa [flatten] using ih j

theorem flatten_get_odd (R : List (GoString × Value)) (j : Nat) :
    (flatten R).get? (2 * j + 1) = (R.get? j).map (fun e => Sprintf_v e.2) := by
  induction R generalizing j with
  | nil => simp [flatten]
  | cons e R ih =>
    obtain ⟨k, v⟩ := e
    cases j with
    | zero => simp [flatten]
    | succ j =>
      have : 2 * (j + 1) + 1 = (2 * j + 1) + 1 + 1 := by omega
      rw [this]
      simpa [flatten] using ih j

/-- C7: for every schema with `N` fields the K/V encoder returns a list of
exactly `2 * N` strings; every even position holds a wire key of the schema,
every wire key stands at exactly one even position, and the string after a
key is the default rendering of a value that the generator of that key's
kind returned. -/
theorem C7_wire_kv_shape (L : Libs) (oTypes : List GoType) (babble : Nat → GoString)
    (intn : Nat → Nat) (N : Nat) (S : Schema) (it : List (GoString × Nat)) (draws : Nat → Draw)
    (hS : buildSchema L oTypes babble intn N = .ok S) (hT : oTypes.Perm registered)
    (hit : it.Perm S.jsonTags) (hd : ∀ j, (draws j).Read ≠ none) :
    S.typ.length = N ∧
    ∃ item, fillKV S.typ it draws [] = .ok item ∧ item.length = 2 * N ∧
      (∀ j, j < N → ∃ k, item.get? (2 * j) = some k ∧ k ∈ mapKeys S.jsonTags) ∧
      (∀ k, k ∈ mapKeys S.jsonTags → ∃! j, item.get? (2 * j) = some k) ∧
      ∀ j, j < N → ∃ k i f v d, item.get? (2 * j) = some k ∧ mapGet S.jsonTags k = some i ∧
        S.typ.get? i = some f ∧ callGenerator (typesAt f.Typ).generator d = .ok v ∧
        item.get? (2 * j + 1) = some (Sprintf_v v) := by
  obtain ⟨hent, -, hnd, hlen⟩ := schema_entries L oTypes babble intn N S hS it hit
  have hreg : ∀ ki ∈ it, ∃ f, S.typ.get? ki.2 = some f ∧ f.Typ ∈ registered := fun ki hki =>
    ⟨_, (hent ki hki).2.2, fieldAt_registered L oTypes babble intn hT ki.2⟩
  obtain ⟨R, hR⟩ := genEntries_total S.typ it draws hreg hd
  have hspec := genEntries_spec S.typ it draws R hR
  have hkeys : R.map Prod.fst = it.map Prod.fst := forall₂_fst_eq hspec
  have hRnd : (R.map Prod.fst).Nodup := hkeys ▸ hnd
  have hRlen : R.length = N := by
    have := congrArg List.length hkeys
    simpa [hlen] using this
  have hSnd : (mapKeys S.jsonTags).Nodup := (hit.map Prod.fst).nodup_iff.mp hnd
  have hmemk : ∀ k, k ∈ R.map Prod.fst ↔ k ∈ mapKeys S.jsonTags := by
    intro k
    rw [hkeys]
    exact (hit.map Prod.fst).mem_iff
  have hfill : fillKV S.typ it draws [] = .ok (flatten R) := by
    rw [fillKV_eq S.typ it draws [] R hR]
    rfl
  refine ⟨by simp [(buildSchema_spec L oTypes babble intn N S hS).1], flatten R, hfill,
    by rw [flatten_length, hRlen], ?_, ?_, ?_⟩
  · intro j hj
    have hjR : j < R.length := by omega
    refine ⟨(R.get ⟨j, hjR⟩).1, ?_, ?_⟩
    · rw [flatten_get_even, List.get?_eq_get hjR]
      rfl
    · rw [← hmemk]
      exact List.mem_map.mpr ⟨_, List.get_mem _ _ _, rfl⟩
  · intro k hk
    rw [← hmemk] at hk
    obtain ⟨j, hj⟩ := List.mem_iff_getElem?.mp hk
    refine ⟨j, ?_, ?_⟩
    · show (flatten R).get? (2 * j) = some k
      rw [flatten_get_even]
      simpa using hj
    · intro j' hj'
      rw [flatten_get_even] at hj'
      have hj'' : (R.map Prod.fst)[j']? = some k := by simpa using hj'
      have hlt : j < (R.map Prod.fst).length := (List.getElem?_eq_some_iff.mp hj).1
      exact (List.getElem?_inj hlt hRnd (hj.trans hj''.symm)).symm
  · intro j hj
    have hjR : j < R.length := by omega
    obtain ⟨ki, hki, hk, f, d, hf, hg⟩ := forall₂_mem_left hspec (R.get ⟨j, hjR⟩)
      (List.get_mem _ _ _)
    refine ⟨(R.get ⟨j, hjR⟩).1, ki.2, f, (R.get ⟨j, hjR⟩).2, d, ?_, ?_, hf, hg, ?_⟩
    · rw [flatten_get_even, List.get?_eq_get hjR]
      rfl
    · rw [mapGet_eq_some _ _ _ hSnd, hk]
      exact hit.subset hki
    · rw [flatten_get_odd, List.get?_eq_get hjR]
      rfl

/-- C7, witness: the statement at the sample schema of two fields: four
strings. -/
theorem C7_witness :
    (buildSchema asciiLibs registered sampleBabble sampleIntn 2 = .ok sampleSchema ∧
      registered.Perm registered ∧ sampleSchema.jsonTags.Perm sampleSchema.jsonTags ∧
      ∀ j : Nat, ((fun _ => sampleDraw) j).Read ≠ none) ∧
    sampleSchema.typ.length = 2 ∧
    ∃ item, fillKV sampleSchema.typ sampleSchema.jsonTags (fun _ => sampleDraw) [] = .ok item ∧
      item.length = 2 * 2 ∧
      (∀ j, j < 2 → ∃ k, item.get? (2 * j) = some k ∧ k ∈ mapKeys sampleSchema.jsonTags) ∧
      (∀ k, k ∈ mapKeys sampleSchema.jsonTags → ∃! j, item.get? (2 * j) = some k) ∧
      ∀ j, j < 2 → ∃ k i f v d, item.get? (2 * j) = some k ∧
        mapGet sampleSchema.jsonTags k = some i ∧ sampleSchema.typ.get? i = some f ∧
        callGenerator (typesAt f.Typ).generator d = .ok v ∧
        item.get? (2 * j + 1) = some (Sprintf_v v) :=
  ⟨⟨sampleSchema_built, List.Perm.refl _, List.Perm.refl _,
      fun _ => (by decide : sampleDraw.Read ≠ none)⟩,
    C7_wire_kv_shape asciiLibs registered sampleBabble sampleIntn 2 sampleSchema
      sampleSchema.jsonTags (fun _ => sampleDraw) sampleSchema_built (List.Perm.refl _)
      (List.Perm.refl _) (fun _ => (by decide : sampleDraw.Read ≠ none))⟩

/-! ## The K/V reader -/

theorem buildExtractors_spec (typ : List StructField) (it : List (GoString × Nat))
    (m : GoMap extractor) (hit : ∀ ki ∈ it, ∃ f, typ.get? ki.2 = some f)
    (hnd : (it.map Prod.fst).Nodup) :
    ∃ exs, buildExtractors typ it m = .ok exs ∧
      (∀ ki ∈ it, ∀ f, typ.get? ki.2 = some f →
        mapGet exs ki.1 = some ⟨ki.2, (typesAt f.Typ).extractor⟩) ∧
      ∀ k, k ∉ it.map Prod.fst → mapGet exs k = mapGet m k := by
  induction it generalizing m with
  | nil => exact ⟨m, rfl, by simp, fun _ _ => rfl⟩
  | cons e it ih =>
    obtain ⟨k, i⟩ := e
    obtain ⟨f, hf⟩ := hit (k, i) (List.mem_cons_self _ _)
    simp only [List.map_cons, List.nodup_cons] at hnd
    obtain ⟨exs, hex, hin, hout⟩ := ih (mapSet m k ⟨i, (typesAt f.Typ).extractor⟩)
      (fun ki h => hit ki (List.mem_cons_of_mem _ h)) hnd.2
    refine ⟨exs, by simp [buildExtractors, bind, Except.bind, (Field_eq_ok _ _ _).mpr hf, hex],
      ?_, ?_⟩
    · intro ki hki f' hf'
      rcases List.mem_cons.mp hki with rfl | hki
      · simp only at hf'
        rw [hf] at hf'
        cases hf'
        rw [hout k hnd.1, mapGet_mapSet]
        simp
      · exact hin ki hki f' hf'
    · intro k' hk'
      simp only [List.map_cons, List.mem_cons, not_or] at hk'
      rw [hout k' hk'.2, mapGet_mapSet, if_neg (fun h : k = k' => hk'.1 h.symm)]

theorem conforms_get (typ : List StructField) (z : List Value)
    (hz : z.map TypeOf = typ.map (fun f => f.Typ)) (i : Nat) (f : StructField)
    (hf : typ.get? i = some f) : ∃ dest, z.get? i = some dest ∧ TypeOf dest = f.Typ := by
  have h := congrArg (fun l => l[i]?) hz
  rw [List.get?_eq_getElem?] at hf
  simp only [List.getElem?_map, hf, Option.map_some'] at h
  cases hd : z[i]? with
  | none => simp [hd] at h
  | some dest =>
    simp only [hd, Option.map_some', Option.some.injEq] at h
    exact ⟨dest, by simpa using hd, h⟩

theorem conforms_set (typ : List StructField) (z : List Value)
    (hz : z.map TypeOf = typ.map (fun f => f.Typ)) (i : Nat) (f : StructField)
    (hf : typ.get? i = some f) (d : Value) (hd : TypeOf d = f.Typ) :
    (z.set i d).map TypeOf = typ.map (fun f => f.Typ) := by
  rw [List.map_set, hz, hd]
  apply List.ext_getElem?
  intro n
  rw [List.getElem?_set]
  split
  · rename_i h
    subst h
    split
    · simp only [List.getElem?_map]
      rw [← List.get?_eq_getElem?, hf]
      rfl
    · rename_i hlt
      rw [List.getElem?_eq_none (by omega)]
  · rfl

theorem extractPair_roundtrip (exs : GoMap extractor) (typ : List StructField) (z : List Value)
    (k : GoString) (i : Nat) (f : StructField) (v : Value)
    (hz : z.map TypeOf = typ.map (fun f => f.Typ))
    (hex : mapGet exs k = some ⟨i, (typesAt f.Typ).extractor⟩) (hf : typ.get? i = some f)
    (hv : wellGenerated f.Typ v) :
    ∃ d, extractPair exs z k (Sprintf_v v) = .ok (z.set i d) ∧ TypeOf d = f.Typ ∧
      equalValues d v = true ∧ i < z.length := by
  obtain ⟨dest, hdest, htd⟩ := conforms_get typ z hz i f hf
  obtain ⟨d, hcall, htd', heq⟩ := extractor_roundtrip f.Typ v dest hv htd
  have hlt : i < z.length := by
    rw [List.get?_eq_some] at hdest
    exact hdest.1
  exact ⟨d, by simp [extractPair, hex, (Field_eq_ok _ _ _).mpr hdest, hcall, bind, Except.bind,
    pure, Except.pure], htd', heq, hlt⟩

theorem decodePairs_roundtrip (exs : GoMap extractor) (typ : List StructField)
    (idx : GoString → Nat) (values : List (GoString × RedisValue)) (z : List Value)
    (hvals : ∀ p ∈ values, ∃ f v, p.2 = .str (Sprintf_v v) ∧
      mapGet exs p.1 = some ⟨idx p.1, (typesAt f.Typ).extractor⟩ ∧
      typ.get? (idx p.1) = some f ∧ wellGenerated f.Typ v)
    (hnd : (values.map (fun p => idx p.1)).Nodup)
    (hz : z.map TypeOf = typ.map (fun f => f.Typ)) :
    ∃ z', decodePairs exs values z = .ok z' ∧ z'.map TypeOf = typ.map (fun f => f.Typ) ∧
      (∀ p ∈ values, ∀ f v, p.2 = .str (Sprintf_v v) → typ.get? (idx p.1) = some f →
        wellGenerated f.Typ v → ∃ d, z'.get? (idx p.1) = some d ∧ equalValues d v = true) ∧
      ∀ i, i ∉ values.map (fun p => idx p.1) → z'.get? i = z.get? i := by
  induction values generalizing z with
  | nil => exact ⟨z, rfl, hz, by simp, fun _ _ => rfl⟩
  | cons p values ih =>
    obtain ⟨k, rv⟩ := p
    obtain ⟨f, v, hrv, hex, hf, hv⟩ := hvals (k, rv) (List.mem_cons_self _ _)
    simp only at hrv hex hf
    subst hrv
    simp only [List.map_cons, List.nodup_cons] at hnd
    obtain ⟨d, hstep, htd, heq, hlt⟩ := extractPair_roundtrip exs typ z k (idx k) f v hz hex hf hv
    have hz1 := conforms_set typ z hz (idx k) f hf d htd
    obtain ⟨z', hdec, hz', hin, hout⟩ := ih (z.set (idx k) d)
      (fun p h => hvals p (List.mem_cons_of_mem _ h)) hnd.2 hz1
    refine ⟨z', by simp [decodePairs, hstep, hdec, bind, Except.bind], hz', ?_, ?_⟩
    · intro p hp f' v' hrv' hf' hv'
      rcases List.mem_cons.mp hp with rfl | hp
      · simp only at hrv' hf'
        rw [hf] at hf'
        cases hf'
        simp only [RedisValue.str.injEq] at hrv'
        obtain ⟨d', hstep', -, heq', -⟩ :=
          extractPair_roundtrip exs typ z k (idx k) f v' hz hex hf hv'
        rw [← hrv', hstep] at hstep'
        simp only [Except.ok.injEq] at hstep'
        have hdd : d = d' := by
          have := congrArg (fun l => l.get? (idx k)) hstep'
          simpa [List.getElem?_set_self hlt] using this
        subst hdd
        refine ⟨d, ?_, heq'⟩
        rw [hout (idx k) hnd.1]
        simp [List.getElem?_set_self hlt]
      · exact hin p hp f' v' hrv' hf' hv'
    · intro i hi
      simp only [List.map_cons, List.mem_cons, not_or] at hi
      rw [hout i hi.2]
      simp [List.getElem?_set_ne (fun h : idx k = i => hi.1 h.symm)]

theorem TypeOf_Zero (t : GoType) : TypeOf (Zero t) = t := by
  cases t <;> rfl

theorem New_conforms (typ : List StructField) :
    (New typ).map TypeOf = typ.map (fun f => f.Typ) := by
  simp [New, Function.comp_def, TypeOf_Zero]

theorem toValuesFrom_flatten (R : List (GoString × Value)) (m : GoMap RedisValue)
    (hnd : (R.map Prod.fst).Nodup) (hdis : ∀ k ∈ R.map Prod.fst, k ∉ mapKeys m) :
    toValuesFrom (flatten R) m
      = m ++ R.map (fun e => (e.1, RedisValue.str (Sprintf_v e.2))) := by
  induction R generalizing m with
  | nil => simp [flatten, toValuesFrom]
  | cons e R ih =>
    obtain ⟨k, v⟩ := e
    simp only [List.map_cons, List.nodup_cons] at hnd
    have hk : k ∉ mapKeys m := hdis k (by simp)
    simp only [flatten, toValuesFrom]
    rw [mapSet_of_not_mem m k _ hk, ih _ hnd.2, List.append_assoc]
    · rfl
    · intro k' hk' hmem
      simp only [mapKeys, List.map_append, List.map_cons, List.map_nil, List.mem_append,
        List.mem_singleton] at hmem
      rcases hmem with hmem | hmem
      · exact hdis k' (by simp [List.mem_map] at hk' ⊢; exact Or.inr hk') hmem
      · subst hmem
        exact hnd.1 hk'

theorem toValues_flatten (R : List (GoString × Value)) (hnd : (R.map Prod.fst).Nodup) :
    (toValues (flatten R)).Perm (R.map (fun e => (e.1, RedisValue.str (Sprintf_v e.2)))) := by
  rw [toValues, toValuesFrom_flatten R [] hnd (by simp [mapKeys])]
  simp

theorem decodeKV_roundtrip (L : Libs) (oTypes : List GoType) (babble : Nat → GoString)
    (intn : Nat → Nat) (N : Nat) (S : Schema) (it it' : List (GoString × Nat))
    (draws : Nat → Draw) (R : List (GoString × Value))
    (hS : buildSchema L oTypes babble intn N = .ok S) (hit : it.Perm S.jsonTags)
    (hit' : it'.Perm S.jsonTags) (hR : genEntries S.typ it draws = .ok R) :
    ∃ item exs, fillKV S.typ it draws [] = .ok item ∧ item = flatten R ∧
      buildExtractors S.typ it' [] = .ok exs ∧
      ∀ values, values.Perm (toValues item) →
        ∃ z, decodeKV exs S.typ values = .ok z ∧
          ∀ k v, (k, v) ∈ R →
            ∃ i d, mapGet S.jsonTags k = some i ∧ z.get? i = some d ∧ equalValues d v = true := by
  obtain ⟨hent, hsnd, hnd, -⟩ := schema_entries L oTypes babble intn N S hS it hit
  obtain ⟨hent', -, hnd', -⟩ := schema_entries L oTypes babble intn N S hS it' hit'
  have hspec := genEntries_spec S.typ it draws R hR
  have hkeys : R.map Prod.fst = it.map Prod.fst := forall₂_fst_eq hspec
  have hRnd : (R.map Prod.fst).Nodup := hkeys ▸ hnd
  have hSnd : (mapKeys S.jsonTags).Nodup := (hit.map Prod.fst).nodup_iff.mp hnd
  obtain ⟨exs, hexs, hin, -⟩ := buildExtractors_spec S.typ it' []
    (fun ki hki => ⟨_, (hent' ki hki).2.2⟩) hnd'
  have hget : ∀ ki ∈ it, mapGet S.jsonTags ki.1 = some ki.2 := fun ki hki =>
    (mapGet_eq_some _ _ _ hSnd).mpr (hit.subset hki)
  -- every entry of the record, with its field
  have hR' : ∀ e ∈ R, ∃ i f, mapGet S.jsonTags e.1 = some i ∧ S.typ.get? i = some f ∧
      mapGet exs e.1 = some ⟨i, (typesAt f.Typ).extractor⟩ ∧ wellGenerated f.Typ e.2 := by
    intro e he
    obtain ⟨ki, hki, hk, f, d, hf, hg⟩ := forall₂_mem_left hspec e he
    have hki' : ki ∈ it' := hit'.symm.subset (hit.subset hki)
    exact ⟨ki.2, f, hk ▸ hget ki hki, hf, hk ▸ hin ki hki' f hf, (generator_spec _ _ _ hg).2.1⟩
  refine ⟨flatten R, exs, by rw [fillKV_eq S.typ it draws [] R hR]; rfl, rfl, hexs, ?_⟩
  intro values hvalues
  have hperm := hvalues.trans (toValues_flatten R hRnd)
  let idx : GoString → Nat := fun k => (mapGet S.jsonTags k).getD 0
  have hvals : ∀ p ∈ values, ∃ f v, p.2 = .str (Sprintf_v v) ∧
      mapGet exs p.1 = some ⟨idx p.1, (typesAt f.Typ).extractor⟩ ∧
      S.typ.get? (idx p.1) = some f ∧ wellGenerated f.Typ v := by
    intro p hp
    obtain ⟨e, he, rfl⟩ := List.mem_map.mp (hperm.subset hp)
    obtain ⟨i, f, hi, hf, hex, hw⟩ := hR' e he
    have hidx : idx e.1 = i := by simp [idx, hi]
    exact ⟨f, e.2, rfl, by simpa [hidx] using hex, by simpa [hidx] using hf, hw⟩
  have hndv : (values.map (fun p => idx p.1)).Nodup := by
    have h1 := hperm.map (fun p => idx p.1)
    rw [h1.nodup_iff, List.map_map]
    have h2 : List.map ((fun p : GoString × RedisValue => idx p.1) ∘
        fun e : GoString × Value => (e.1, RedisValue.str (Sprintf_v e.2))) R
        = (R.map Prod.fst).map idx := by
      simp [Function.comp_def]
    rw [h2, hkeys, List.map_map]
    have h3 : List.map (idx ∘ Prod.fst) it = it.map Prod.snd := by
      apply List.map_congr_left
      intro ki hki
      simp [idx, hget ki hki]
    rw [h3, hsnd.nodup_iff]
    exact List.nodup_range N
  obtain ⟨z, hz, -, hzin, -⟩ := decodePairs_roundtrip exs S.typ idx values (New S.typ) hvals hndv
    (New_conforms S.typ)
  refine ⟨z, hz, ?_⟩
  intro k v hkv
  obtain ⟨i, f, hi, hf, -, hw⟩ := hR' (k, v) hkv
  have hidx : idx k = i := by simp [idx, hi]
  have hp : (k, RedisValue.str (Sprintf_v v)) ∈ values :=
    hperm.symm.subset (List.mem_map.mpr ⟨(k, v), hkv, rfl⟩)
  obtain ⟨d, hd, heq⟩ := hzin _ hp f v rfl (by simpa [hidx] using hf) hw
  exact ⟨i, d, hi, by simpa [hidx] using hd, heq⟩

/-! ## Claims on the K/V round trip -/

/-- C1: for each registered kind and every value that the kind's generator
returns, the kind's extractor applied to the default rendering of the value
does not fail and leaves in its destination a value equal to it; and for
every schema and every record generated from it, decoding the K/V encoding of
the record against the schema yields a value equal to the record's under
every field. -/
theorem C1_kv_round_trip :
    (∀ (t : GoType) (d : Draw) (v dest : Value), t ∈ registered →
      callGenerator (typesAt t).generator d = .ok v → TypeOf dest = t →
        ∃ dest', Call (typesAt t).extractor (Sprintf_v v) dest = .ok dest' ∧
          equalValues dest' v = true) ∧
    (∀ (L : Libs) (oTypes : List GoType) (babble : Nat → GoString) (intn : Nat → Nat) (N : Nat)
      (S : Schema) (it it' : List (GoString × Nat)) (draws : Nat → Draw)
      (R : List (GoString × Value)),
      buildSchema L oTypes babble intn N = .ok S → it.Perm S.jsonTags → it'.Perm S.jsonTags →
      genEntries S.typ it draws = .ok R →
        ∃ item exs, fillKV S.typ it draws [] = .ok item ∧ item = flatten R ∧
          buildExtractors S.typ it' [] = .ok exs ∧
          ∀ values, values.Perm (toValues item) →
            ∃ z, decodeKV exs S.typ values = .ok z ∧
              ∀ k v, (k, v) ∈ R →
                ∃ i d, mapGet S.jsonTags k = some i ∧ z.get? i = some d ∧
                  equalValues d v = true) := by
  refine ⟨?_, ?_⟩
  · intro t d v dest _ hg hd
    obtain ⟨dest', h1, -, h2⟩ := extractor_roundtrip t v dest (generator_spec t d v hg).2.1 hd
    exact ⟨dest', h1, h2⟩
  · intro L oTypes babble intn N S it it' draws R hS hit hit' hR
    exact decodeKV_roundtrip L oTypes babble intn N S it it' draws R hS hit hit' hR

/-- C1, witness: the scenario of the specification.  The sample schema has
the fields alpha, a `uint16`, and beta, a `string`; the record with alpha at
42 is encoded as alpha, 42, beta and the text of its UUID, and decoding that
list yields 42 and the same text. -/
theorem C1_witness :
    (buildSchema asciiLibs registered sampleBabble sampleIntn 2 = .ok sampleSchema ∧
      genEntries sampleSchema.typ sampleSchema.jsonTags sampleDraws = .ok sampleRecord ∧
      fillKV sampleSchema.typ sampleSchema.jsonTags sampleDraws [] = .ok sampleItem ∧
      (buildExtractors sampleSchema.typ sampleSchema.jsonTags []).bind
          (fun exs => decodeKV exs sampleSchema.typ (toValues sampleItem))
        = .ok [.uint16 42, .string (ascii "f47ac10b-58cc-4372-a567-0e02b2c3d479")]) ∧
    ∃ item exs, fillKV sampleSchema.typ sampleSchema.jsonTags sampleDraws [] = .ok item ∧
      item = flatten sampleRecord ∧
      buildExtractors sampleSchema.typ sampleSchema.jsonTags [] = .ok exs ∧
      ∀ values, values.Perm (toValues item) →
        ∃ z, decodeKV exs sampleSchema.typ values = .ok z ∧
          ∀ k v, (k, v) ∈ sampleRecord →
            ∃ i d, mapGet sampleSchema.jsonTags k = some i ∧ z.get? i = some d ∧
              equalValues d v = true :=
  ⟨⟨sampleSchema_built, by decide, by decide, by decide⟩,
    C1_kv_round_trip.2 asciiLibs registered sampleBabble sampleIntn 2 sampleSchema
      sampleSchema.jsonTags sampleSchema.jsonTags sampleDraws sampleRecord sampleSchema_built
      (List.Perm.refl _) (List.Perm.refl _) (by decide)⟩

/-! ## Claims on malformed input -/

theorem parseUintLoop_nondigit (s : GoString) (h : ∃ c ∈ s, ¬ (48 ≤ c ∧ c ≤ 57)) (n : Nat) :
    ∃ e, parseUintLoop s n = .error e := by
  induction s generalizing n with
  | nil => simp at h
  | cons c cs ih =>
    rw [parseUintLoop]
    by_cases hc : 48 ≤ c ∧ c ≤ 57
    · have hrest : ∃ x ∈ cs, ¬ (48 ≤ x ∧ x ≤ 57) := by
        obtain ⟨x, hx, hnx⟩ := h
        rcases List.mem_cons.mp hx with rfl | hx
        · exact absurd hc hnx
        · exact ⟨x, hx, hnx⟩
      have hd : ¬ c - 48 ≥ 10 := by omega
      simp only [hc, and_self, if_true, hd, if_false]
      split
      · exact ⟨_, rfl⟩
      · split
        · exact ⟨_, rfl⟩
        · exact ih hrest _
    · simp only [hc, if_false]
      split
      · simp
      · rename_i d hd
        split at hd
        · simp only [Option.some.injEq] at hd
          have : d ≥ 10 := by omega
          simp [this]
        · simp at hd

theorem uint16Extractor_fatal (src : GoString) (n0 : Nat)
    (h : src = [] ∨ ∃ c ∈ src, ¬ (48 ≤ c ∧ c ≤ 57)) :
    ∃ e, uint16Extractor src (.uint16 n0) = .error (.fatal "Couldn't parse uInt" src e) := by
  have hp : ∃ u e, ParseUint src = (u, some e) := by
    unfold ParseUint
    rcases h with rfl | h
    · exact ⟨_, _, rfl⟩
    · obtain ⟨e, he⟩ := parseUintLoop_nondigit src h 0
      split
      · exact ⟨_, _, rfl⟩
      · rw [he]
        cases e <;> exact ⟨_, _, rfl⟩
  obtain ⟨u, e, hp⟩ := hp
  exact ⟨e.Error, by simp [uint16Extractor, hp, assert, bind, Except.bind]⟩

theorem uint16Extractor_total (src : GoString) (n0 : Nat) :
    (∃ n, uint16Extractor src (.uint16 n0) = .ok (.uint16 n)) ∨
      ∃ e, uint16Extractor src (.uint16 n0) = .error (.fatal "Couldn't parse uInt" src e) := by
  cases hp : ParseUint src with
  | mk u err =>
    cases err with
    | none =>
      exact Or.inl ⟨u % 2 ^ 16, by
        simp [uint16Extractor, hp, assert, bind, Except.bind, pure, Except.pure]⟩
    | some e => exact Or.inr ⟨e.Error, by simp [uint16Extractor, hp, assert, bind, Except.bind]⟩

theorem uuidExtractor_total (src : GoString) (u0 : UUID) :
    (∃ u, uuidExtractor src (.UUID u0) = .ok (.UUID u)) ∨
      ∃ e, uuidExtractor src (.UUID u0) = .error (.fatal "Couldn't parse UUID" src e) := by
  cases hp : ParseBytes src with
  | ok u =>
    exact Or.inl ⟨u, by
      simp [uuidExtractor, UUID_UnmarshalText, hp, assert, bind, Except.bind, pure, Except.pure]⟩
  | error e =>
    exact Or.inr ⟨e, by simp [uuidExtractor, UUID_UnmarshalText, hp, assert, bind, Except.bind]⟩

theorem xvalues_valid (c : Nat) : xvalues c ≠ 255 ↔ hexDigit c = true := by
  unfold xvalues hexDigit
  simp only [Bool.or_eq_true, Bool.and_eq_true, decide_eq_true_eq]
  split
  · constructor
    · intro _
      exact Or.inl (Or.inl (by assumption))
    · intro _
      omega
  · split
    · constructor
      · intro _
        exact Or.inl (Or.inr (by assumption))
      · intro _
        omega
    · split
      · constructor
        · intro _
          exact Or.inr (by assumption)
        · intro _
          omega
      · constructor
        · intro h
          exact absurd rfl h
        · intro h
          rcases h with (h | h) | h <;> contradiction

theorem xtob_valid (x1 x2 : Nat) :
    (xtob x1 x2).2 = true ↔ hexDigit x1 = true ∧ hexDigit x2 = true := by
  simp only [xtob, Bool.and_eq_true, decide_eq_true_eq, xvalues_valid]

theorem parseHexPairs_ok_iff (b : GoString) (offsets : List Nat) :
    (∃ u, parseHexPairs b offsets = .ok u) ↔
      ∀ x ∈ offsets, hexDigit (b.getD x 0) = true ∧ hexDigit (b.getD (x + 1) 0) = true := by
  induction offsets with
  | nil => exact ⟨fun _ x hx => absurd hx (List.not_mem_nil x), fun _ => ⟨[], rfl⟩⟩
  | cons x xs ih =>
    rw [parseHexPairs, List.forall_mem_cons, ← ih, ← xtob_valid]
    by_cases hv : (xtob (b.getD x 0) (b.getD (x + 1) 0)).2 = true
    · simp only [hv, Bool.not_true, Bool.false_eq_true, if_false, true_and]
      cases parseHexPairs b xs with
      | ok vs => exact ⟨fun _ => ⟨vs, rfl⟩, fun _ => ⟨_, rfl⟩⟩
      | error e =>
        constructor
        · rintro ⟨u, hu⟩
          cases hu
        · rintro ⟨u, hu⟩
          cases hu
    · have hf : (xtob (b.getD x 0) (b.getD (x + 1) 0)).2 = false := by
        simpa using hv
      rw [hf]
      simp

theorem hyphenatedForm_iff (b : GoString) :
    hyphenatedForm b = true ↔
      (b.getD 8 0 = 45 ∧ b.getD 13 0 = 45 ∧ b.getD 18 0 = 45 ∧ b.getD 23 0 = 45) ∧
        ∀ x ∈ [0, 2, 4, 6, 9, 11, 14, 16, 19, 21, 24, 26, 28, 30, 32, 34],
          hexDigit (b.getD x 0) = true ∧ hexDigit (b.getD (x + 1) 0) = true := by
  have key : hyphenatedForm b = true ↔ ∀ i, i < 36 →
      (if i = 8 ∨ i = 13 ∨ i = 18 ∨ i = 23 then b.getD i 0 = 45
        else hexDigit (b.getD i 0) = true) := by
    simp only [hyphenatedForm, List.all_eq_true, List.mem_range]
    constructor
    · intro h i hi
      have := h i hi
      split
      · rename_i hc
        simpa [hc] using this
      · rename_i hc
        simpa [hc] using this
    · intro h i hi
      have := h i hi
      split at this
      · rename_i hc
        simpa [hc] using this
      · rename_i hc
        simpa [hc] using this
  rw [key]
  constructor
  · intro h
    refine ⟨⟨by simpa using h 8 (by norm_num), by simpa using h 13 (by norm_num),
      by simpa using h 18 (by norm_num), by simpa using h 23 (by norm_num)⟩, ?_⟩
    intro x hx
    simp only [List.mem_cons, List.mem_singleton, List.not_mem_nil, or_false] at hx
    rcases hx with rfl | rfl | rfl | rfl | rfl | rfl | rfl | rfl | rfl | rfl | rfl | rfl | rfl |
      rfl | rfl | rfl
    · exact ⟨by simpa using h 0 (by norm_num), by simpa using h 1 (by norm_num)⟩
    · exact ⟨by simpa using h 2 (by norm_num), by simpa using h 3 (by norm_num)⟩
    · exact ⟨by simpa using h 4 (by norm_num), by simpa using h 5 (by norm_num)⟩
    · exact ⟨by simpa using h 6 (by norm_num), by simpa using h 7 (by norm_num)⟩
    · exact ⟨by simpa using h 9 (by norm_num), by simpa using h 10 (by norm_num)⟩
    · exact ⟨by simpa using h 11 (by norm_num), by simpa using h 12 (by norm_num)⟩
    · exact ⟨by simpa using h 14 (by norm_num), by simpa using h 15 (by norm_num)⟩
    · exact ⟨by simpa using h 16 (by norm_num), by simpa using h 17 (by norm_num)⟩
    · exact ⟨by simpa using h 19 (by norm_num), by simpa using h 20 (by norm_num)⟩
    · exact ⟨by simpa using h 21 (by norm_num), by simpa using h 22 (by norm_num)⟩
    · exact ⟨by simpa using h 24 (by norm_num), by simpa using h 25 (by norm_num)⟩
    · exact ⟨by simpa using h 26 (by norm_num), by simpa using h 27 (by norm_num)⟩
    · exact ⟨by simpa using h 28 (by norm_num), by simpa using h 29 (by norm_num)⟩
    · exact ⟨by simpa using h 30 (by norm_num), by simpa using h 31 (by norm_num)⟩
    · exact ⟨by simpa using h 32 (by norm_num), by simpa using h 33 (by norm_num)⟩
    · exact ⟨by simpa using h 34 (by norm_num), by simpa using h 35 (by norm_num)⟩
  · rintro ⟨⟨h8, h13, h18, h23⟩, hoff⟩ i hi
    have hx : ∀ x, x ∈ [0, 2, 4, 6, 9, 11, 14, 16, 19, 21, 24, 26, 28, 30, 32, 34] →
        hexDigit (b.getD x 0) = true ∧ hexDigit (b.getD (x + 1) 0) = true := hoff
    interval_cases i
    all_goals first
      | simpa using h8
      | simpa using h13
      | simpa using h18
      | simpa using h23
      | simpa using (hx _ (by decide)).1
      | simpa using (hx _ (by decide)).2

theorem parseHyphenated_ok_iff (b : GoString) :
    (∃ u, parseHyphenated b = .ok u) ↔ hyphenatedForm b = true := by
  rw [hyphenatedForm_iff]
  unfold parseHyphenated
  by_cases hh : b.getD 8 0 ≠ 45 ∨ b.getD 13 0 ≠ 45 ∨ b.getD 18 0 ≠ 45 ∨ b.getD 23 0 ≠ 45
  · rw [if_pos hh]
    constructor
    · rintro ⟨u, hu⟩
      cases hu
    · rintro ⟨⟨h8, h13, h18, h23⟩, -⟩
      rcases hh with h | h | h | h
      · exact absurd h8 h
      · exact absurd h13 h
      · exact absurd h18 h
      · exact absurd h23 h
  · rw [if_neg hh, parseHexPairs_ok_iff]
    simp only [ne_eq, not_or, not_not] at hh
    exact ⟨fun h => ⟨hh, h⟩, fun h => h.2⟩

theorem all_range32_iff (b : GoString) :
    (List.range 32).all (fun i => hexDigit (b.getD i 0)) = true ↔
      ∀ x ∈ [0, 2, 4, 6, 8, 10, 12, 14, 16, 18, 20, 22, 24, 26, 28, 30],
        hexDigit (b.getD x 0) = true ∧ hexDigit (b.getD (x + 1) 0) = true := by
  simp only [List.all_eq_true, List.mem_range]
  constructor
  · intro h x hx
    simp only [List.mem_cons, List.mem_singleton, List.not_mem_nil, or_false] at hx
    rcases hx with rfl | rfl | rfl | rfl | rfl | rfl | rfl | rfl | rfl | rfl | rfl | rfl | rfl |
      rfl | rfl | rfl
    all_goals exact ⟨h _ (by norm_num), h _ (by norm_num)⟩
  · intro hx i hi
    interval_cases i
    all_goals first
      | exact (hx _ (by decide)).1
      | exact (hx _ (by decide)).2

/-- The parser of the uuid package accepts exactly the texts of a UUID. -/
theorem ParseBytes_ok_iff (b : GoString) : (∃ u, ParseBytes b = .ok u) ↔ uuidText b = true := by
  by_cases h36 : b.length = 36
  · simp [ParseBytes, uuidText, h36, parseHyphenated_ok_iff]
  · by_cases h45 : b.length = 45
    · by_cases hp : (b.take 9).map asciiLower = ascii "urn:uuid:"
      · have hl : ParseBytes b = parseHyphenated (b.drop 9) := by
          simp only [ParseBytes, Nat.reduceAdd, h36, h45, if_false, if_true, hp, ne_eq,
            not_true_eq_false, Nat.reduceEqDiff, reduceIte]
        have hr : uuidText b = hyphenatedForm (b.drop 9) := by
          simp only [uuidText, h45, hp, decide_True, Bool.true_and, Bool.and_true]
          simp
        rw [hl, hr, parseHyphenated_ok_iff]
      · have hl : ParseBytes b = .error "invalid urn prefix" := by
          simp only [ParseBytes, Nat.reduceAdd, h36, h45, if_false, if_true, hp, ne_eq,
            not_false_eq_true, Nat.reduceEqDiff, reduceIte]
        have hr : uuidText b = false := by
          simp only [uuidText, h45, hp, decide_False, decide_True, Bool.true_and,
            Bool.false_and]
          simp
        rw [hl, hr]
        simp
    · by_cases h38 : b.length = 38
      · simp [ParseBytes, uuidText, h38, parseHyphenated_ok_iff]
      · by_cases h32 : b.length = 32
        · have hl : ParseBytes b
              = parseHexPairs b [0, 2, 4, 6, 8, 10, 12, 14, 16, 18, 20, 22, 24, 26, 28, 30] := by
            simp only [ParseBytes, Nat.reduceAdd, h36, h45, h38, h32, if_false, if_true,
              Nat.reduceEqDiff, reduceIte]
          have hr : uuidText b = (List.range 32).all (fun i => hexDigit (b.getD i 0)) := by
            simp only [uuidText, h36, h45, h38, h32, decide_False, decide_True, Bool.true_and,
              Bool.false_and, Bool.false_or, Nat.reduceEqDiff]
          rw [hl, hr, parseHexPairs_ok_iff, all_range32_iff]
        · simp [ParseBytes, uuidText, h36, h45, h38, h32]


theorem parseUintLoop_range (s : GoString) (n : Nat) (hdig : allDigits s) (hn : n < 2 ^ 64)
    (hge : 2 ^ 64 ≤ decimalFrom n s) : parseUintLoop s n = .error .outOfRange := by
  induction s generalizing n with
  | nil =>
    simp only [decimalFrom, List.foldl_nil] at hge
    omega
  | cons c cs ih =>
    have hc : 48 ≤ c ∧ c ≤ 57 := hdig c (List.mem_cons_self _ _)
    have hcs : allDigits cs := fun x hx => hdig x (List.mem_cons_of_mem _ hx)
    have hstep : decimalFrom n (c :: cs) = decimalFrom (n * 10 + (c - 48)) cs := by
      simp [decimalFrom]
    rw [hstep] at hge
    have hd : ¬ c - 48 ≥ 10 := by omega
    rw [parseUintLoop]
    simp only [hc, and_self, if_true, hd, if_false]
    by_cases hcut : n ≥ cutoff
    · simp [hcut]
    · simp only [hcut, if_false]
      have h10 : n * 10 < 2 ^ 64 := by
        simp only [cutoff, maxUint64] at hcut
        norm_num at hcut ⊢
        omega
      have hm1 : (n * 10) % 2 ^ 64 = n * 10 := Nat.mod_eq_of_lt h10
      rw [hm1]
      by_cases hov : n * 10 + (c - 48) < 2 ^ 64
      · have hm2 : (n * 10 + (c - 48)) % 2 ^ 64 = n * 10 + (c - 48) := Nat.mod_eq_of_lt hov
        have hno : ¬ (n * 10 + (c - 48) < n * 10 ∨ n * 10 + (c - 48) > maxUint64) := by
          simp only [maxUint64]
          norm_num at hov ⊢
          omega
        rw [hm2]
        simp only [hno, if_false]
        exact ih _ hcs hov hge
      · have hm2 : (n * 10 + (c - 48)) % 2 ^ 64 = n * 10 + (c - 48) - 2 ^ 64 := by
          rw [Nat.mod_eq_sub_mod (by omega), Nat.mod_eq_of_lt]
          norm_num at h10 ⊢
          omega
        have hyes : (n * 10 + (c - 48)) % 2 ^ 64 < n * 10 ∨
            (n * 10 + (c - 48)) % 2 ^ 64 > maxUint64 := by
          left
          rw [hm2]
          norm_num at h10 hov ⊢
          omega
        simp only [hyes, if_true]

theorem uint16Extractor_range (src : GoString) (n0 : Nat) (hne : src ≠ []) (hdig : allDigits src)
    (hge : 2 ^ 64 ≤ decimalValue src) :
    ∃ e, uint16Extractor src (.uint16 n0) = .error (.fatal "Couldn't parse uInt" src e) := by
  have hp : ParseUint src = (maxUint64, some .outOfRange) := by
    simp [ParseUint, hne, parseUintLoop_range src 0 hdig (by norm_num) hge]
  exact ⟨NumError.outOfRange.Error, by simp [uint16Extractor, hp, assert, bind, Except.bind]⟩

/-- The `uint16` extractor ends in a decode error on exactly three kinds of
input. -/
theorem uint16Extractor_fatal_iff (src : GoString) (n0 : Nat) :
    (∃ e, uint16Extractor src (.uint16 n0) = .error (.fatal "Couldn't parse uInt" src e)) ↔
      src = [] ∨ (∃ c ∈ src, ¬ (48 ≤ c ∧ c ≤ 57)) ∨ 2 ^ 64 ≤ decimalValue src := by
  constructor
  · rintro ⟨e, he⟩
    by_contra hcon
    rw [not_or, not_or] at hcon
    obtain ⟨hne, hnd, hlt⟩ := hcon
    have hdig : allDigits src := by
      intro c hc
      by_contra hnc
      exact hnd ⟨c, hc, hnc⟩
    rw [uint16Extractor_digits src n0 hne hdig (not_le.mp hlt)] at he
    cases he
  · rintro (h | h | h)
    · exact uint16Extractor_fatal src n0 (Or.inl h)
    · exact uint16Extractor_fatal src n0 (Or.inr h)
    · by_cases hne : src = []
      · exact uint16Extractor_fatal src n0 (Or.inl hne)
      · by_cases hdig : allDigits src
        · exact uint16Extractor_range src n0 hne hdig h
        · simp only [allDigits, not_forall] at hdig
          obtain ⟨c, hc, hnc⟩ := hdig
          exact uint16Extractor_fatal src n0 (Or.inr ⟨c, hc, hnc⟩)

/-- The `uuid.UUID` extractor ends in a decode error on exactly the inputs
that are not the text of a UUID. -/
theorem uuidExtractor_fatal_iff (src : GoString) (u0 : UUID) :
    (∃ e, uuidExtractor src (.UUID u0) = .error (.fatal "Couldn't parse UUID" src e)) ↔
      uuidText src = false := by
  have hiff := ParseBytes_ok_iff src
  cases hp : ParseBytes src with
  | ok u =>
    have ht : uuidText src = true := hiff.mp ⟨u, hp⟩
    simp [uuidExtractor, UUID_UnmarshalText, hp, assert, bind, Except.bind, pure, Except.pure, ht]
  | error e =>
    have ht : uuidText src = false := by
      cases h : uuidText src with
      | false => rfl
      | true =>
        obtain ⟨u, hu⟩ := hiff.mpr h
        rw [hp] at hu
        cases hu
    simp [uuidExtractor, UUID_UnmarshalText, hp, assert, bind, Except.bind, ht]

theorem uuidExtractor_fatal (src : GoString) (u0 : UUID)
    (h : src.length ≠ 32 ∧ src.length ≠ 36 ∧ src.length ≠ 38 ∧ src.length ≠ 45) :
    uuidExtractor src (.UUID u0)
      = .error (.fatal "Couldn't parse UUID" src
          ("invalid UUID length: " ++ toString src.length)) := by
  have hp : ParseBytes src = .error ("invalid UUID length: " ++ toString src.length) := by
    simp [ParseBytes, h.1, h.2.1, h.2.2.1, h.2.2.2]
  simp [uuidExtractor, UUID_UnmarshalText, hp, assert, bind, Except.bind]

theorem truncated_not_uuidText (u : UUID) (hlen : u.length = 16) (n : Nat) (hn : n < 36) :
    uuidText ((UUID_String u).take n) = false := by
  rcases u with _ | ⟨b0, _ | ⟨b1, _ | ⟨b2, _ | ⟨b3, _ | ⟨b4, _ | ⟨b5, _ | ⟨b6, _ | ⟨b7, _ | ⟨b8, _ | ⟨b9, _ | ⟨b10, _ | ⟨b11, _ | ⟨b12, _ | ⟨b13, _ | ⟨b14, _ | ⟨b15, _ | ⟨_, _⟩⟩⟩⟩⟩⟩⟩⟩⟩⟩⟩⟩⟩⟩⟩⟩⟩ <;> simp at hlen
  by_cases h32 : n = 32
  · subst h32
    cases h : uuidText (List.take 32 (UUID_String [b0, b1, b2, b3, b4, b5, b6, b7, b8, b9, b10,
        b11, b12, b13, b14, b15])) with
    | false => rfl
    | true =>
      exfalso
      simp only [uuidText, UUID_String, encodeHex, hexEncode, List.take, List.drop,
        List.cons_append, List.nil_append, List.length_cons, List.length_nil] at h
      simp only [Nat.reduceAdd, Nat.reduceEqDiff, decide_False, decide_True, Bool.false_and,
        Bool.false_or, Bool.true_and, List.all_eq_true, List.mem_range] at h
      have h8 := h 8 (by norm_num)
      simp [hexDigit] at h8
  · have hl : ((UUID_String [b0, b1, b2, b3, b4, b5, b6, b7, b8, b9, b10, b11, b12, b13, b14,
        b15]).take n).length = n := by
      simp [UUID_String, encodeHex, hexEncode]
      omega
    simp only [uuidText, hl]
    have e1 : ¬ n = 36 := by omega
    have e2 : ¬ n = 45 := by omega
    have e3 : ¬ n = 38 := by omega
    simp [e1, e2, e3, h32]

theorem hyphen_mem_UUID_String (u : UUID) : 45 ∈ UUID_String u := by
  simp [UUID_String, encodeHex]

theorem formatBits_length (fuel : Nat) (u : Nat) (acc : GoString) :
    (formatBits fuel u acc).length ≤ fuel + acc.length := by
  induction fuel generalizing u acc with
  | zero => simp [formatBits]
  | succ fuel ih =>
    rw [formatBits]
    split
    · have := ih (u / 10) ((48 + u % 10) :: acc)
      simp only [List.length_cons] at this
      omega
    · simp only [List.length_cons]
      omega

theorem extractor_types (t : GoType) :
    (typesAt t).extractor = match t with
      | .string => some stringExtractor
      | .uint16 => some uint16Extractor
      | .UUID => some uuidExtractor
      | .uint64 => none := by
  cases t <;> simp [typesAt, types, List.find?]

/-- C4, as the code has it: the `string` extractor accepts every input, the
empty string too, and stores it unchanged.  The `uint16` extractor ends in a
decode error that reports the raw string on exactly these inputs: the empty
string, every input with a byte that is no decimal digit (so the canonical
text of every UUID, and garbage), and every digit string that denotes `2 ^ 64`
or more.  The `uuid.UUID` extractor ends in such an error on exactly the
inputs that are not the text of a UUID in one of the four forms the library
reads: so on the empty string and every other input whose length is none of
32, 36, 38 and 45, on the decimal rendering of every unsigned integer, on
every canonical text cut short, and on text of such a length with a byte that
is no hexadecimal digit or with a hyphen out of place.  No extractor of a
registered kind, called on a destination of its type, ends in a runtime
fault: it returns, or it ends in a decode error that reports the raw
string. -/
theorem C4_extractor_failures :
    (∀ (src s0 : GoString),
      Call (typesAt .string).extractor src (.string s0) = .ok (.string src)) ∧
    (∀ (src : GoString) (n0 : Nat),
      (∃ e, Call (typesAt .uint16).extractor src (.uint16 n0)
        = .error (.fatal "Couldn't parse uInt" src e)) ↔
      (src = [] ∨ (∃ c ∈ src, ¬ (48 ≤ c ∧ c ≤ 57)) ∨ 2 ^ 64 ≤ decimalValue src)) ∧
    (∀ (u : UUID) (n0 : Nat),
      ∃ e, Call (typesAt .uint16).extractor (UUID_String u) (.uint16 n0)
        = .error (.fatal "Couldn't parse uInt" (UUID_String u) e)) ∧
    (∀ (src : GoString) (u0 : UUID),
      (∃ e, Call (typesAt .UUID).extractor src (.UUID u0)
        = .error (.fatal "Couldn't parse UUID" src e)) ↔ uuidText src = false) ∧
    (∀ (src : GoString) (u0 : UUID),
      src.length ≠ 32 ∧ src.length ≠ 36 ∧ src.length ≠ 38 ∧ src.length ≠ 45 →
      Call (typesAt .UUID).extractor src (.UUID u0)
        = .error (.fatal "Couldn't parse UUID" src
            ("invalid UUID length: " ++ toString src.length))) ∧
    (∀ (n : Nat) (u0 : UUID),
      Call (typesAt .UUID).extractor (FormatUint n) (.UUID u0)
        = .error (.fatal "Couldn't parse UUID" (FormatUint n)
            ("invalid UUID length: " ++ toString (FormatUint n).length))) ∧
    (∀ (u u0 : UUID) (n : Nat), u.length = 16 → n < 36 →
      ∃ e, Call (typesAt .UUID).extractor ((UUID_String u).take n) (.UUID u0)
        = .error (.fatal "Couldn't parse UUID" ((UUID_String u).take n) e)) ∧
    (∀ (t : GoType) (src : GoString) (dest : Value), t ∈ registered → TypeOf dest = t →
      (∃ d, Call (typesAt t).extractor src dest = .ok d ∧ TypeOf d = t) ∨
        ∃ m e, Call (typesAt t).extractor src dest = .error (.fatal m src e)) := by
  refine ⟨?_, ?_, ?_, ?_, ?_, ?_, ?_, ?_⟩
  · intro src s0
    simp [extractor_types, Call, stringExtractor]
  · intro src n0
    simpa [extractor_types, Call] using uint16Extractor_fatal_iff src n0
  · intro u n0
    simpa [extractor_types, Call] using
      uint16Extractor_fatal (UUID_String u) n0
        (Or.inr ⟨45, hyphen_mem_UUID_String u, by omega⟩)
  · intro src u0
    simpa [extractor_types, Call] using uuidExtractor_fatal_iff src u0
  · intro src u0 h
    simpa [extractor_types, Call] using uuidExtractor_fatal src u0 h
  · intro n u0
    have hlen := formatBits_length 20 n []
    have hl : (FormatUint n).length ≤ 20 := by simpa [FormatUint] using hlen
    simpa [extractor_types, Call] using
      uuidExtractor_fatal (FormatUint n) u0 ⟨by omega, by omega, by omega, by omega⟩
  · intro u u0 n hlen hn
    have h := (uuidExtractor_fatal_iff ((UUID_String u).take n) u0).mpr
      (truncated_not_uuidText u hlen n hn)
    simpa [extractor_types, Call] using h
  · intro t src dest ht hd
    rcases (mem_registered t).mp ht with rfl | rfl | rfl <;> cases dest <;>
      simp only [TypeOf, reduceCtorEq] at hd
    · exact Or.inl ⟨.string src, by simp [extractor_types, Call, stringExtractor], rfl⟩
    · rename_i n0
      rcases uint16Extractor_total src n0 with ⟨n, h⟩ | ⟨e, h⟩
      · exact Or.inl ⟨.uint16 n, by simpa [extractor_types, Call] using h, rfl⟩
      · exact Or.inr ⟨_, e, by simpa [extractor_types, Call] using h⟩
    · rename_i u0
      rcases uuidExtractor_total src u0 with ⟨u, h⟩ | ⟨e, h⟩
      · exact Or.inl ⟨.UUID u, by simpa [extractor_types, Call] using h, rfl⟩
      · exact Or.inr ⟨_, e, by simpa [extractor_types, Call] using h⟩

/-- C4, counterexample: on the empty string the `string` extractor does not
fail, it stores the empty string; nor does it fail on the string 42, which is
valid for the kind `uint16`; and the `uuid.UUID` extractor does not fail on
the canonical text of a UUID, which is a value of the kind `string`. -/
theorem C4_counterexample :
    Call (typesAt .string).extractor [] (.string (ascii "before")) = .ok (.string []) ∧
      Call (typesAt .string).extractor (ascii "42") (.string []) = .ok (.string (ascii "42")) ∧
      (stringGenerator sampleDraw
          = .ok (.string (ascii "f47ac10b-58cc-4372-a567-0e02b2c3d479")) ∧
        (Call (typesAt .UUID).extractor (ascii "f47ac10b-58cc-4372-a567-0e02b2c3d479")
            (Zero .UUID)).toOption
          = (uuidGenerator sampleDraw).toOption) := by
  decide

/-! ## Claims on names outside the schema -/

theorem extractPair_unknown (exs : GoMap extractor) (z : List Value) (k vs : GoString)
    (h : mapGet exs k = none) : ∃ r, extractPair exs z k vs = .error (.panicked r) := by
  simp only [extractPair, h, Option.getD_none, bind, Except.bind]
  cases hf : Field z 0 with
  | error e =>
    unfold Field at hf
    split at hf
    · simp at hf
    · simp only [Except.error.injEq] at hf
      exact ⟨_, by rw [← hf]⟩
  | ok dest => exact ⟨"reflect: call of reflect.Value.Call on zero Value", rfl⟩

theorem extractPair_known (exs : GoMap extractor) (z : List Value) (k vs : GoString) (i : Nat)
    (ext : Option (GoString → Value → Except Fault Value)) (dest : Value)
    (h : mapGet exs k = some ⟨i, ext⟩) (hd : z.get? i = some dest) :
    extractPair exs z k vs = (Call ext vs dest).map (fun d => z.set i d) := by
  simp only [extractPair, h, Option.getD_some, (Field_eq_ok _ _ _).mpr hd, bind, Except.bind]
  cases Call ext vs dest <;> rfl

theorem decodePairs_append (exs : GoMap extractor) (a b : List (GoString × RedisValue))
    (z : List Value) :
    decodePairs exs (a ++ b) z = (decodePairs exs a z).bind (decodePairs exs b) := by
  induction a generalizing z with
  | nil => rfl
  | cons p a ih =>
    obtain ⟨k, rv⟩ := p
    cases rv with
    | other => simpa [decodePairs] using ih z
    | str vs =>
      simp only [List.cons_append, decodePairs, bind, Except.bind]
      cases extractPair exs z k vs with
      | error e => rfl
      | ok z1 => simpa [Except.bind] using ih z1

theorem decodePairs_unknown (exs : GoMap extractor) (values : List (GoString × RedisValue))
    (z : List Value) (h : ∃ p ∈ values, mapGet exs p.1 = none ∧ ∃ s, p.2 = .str s) :
    ∃ e, decodePairs exs values z = .error e := by
  induction values generalizing z with
  | nil => simp at h
  | cons p values ih =>
    obtain ⟨k, rv⟩ := p
    cases rv with
    | other =>
      have h' : ∃ p ∈ values, mapGet exs p.1 = none ∧ ∃ s, p.2 = .str s := by
        obtain ⟨p, hp, hk, s, hs⟩ := h
        rcases List.mem_cons.mp hp with rfl | hp
        · simp at hs
        · exact ⟨p, hp, hk, s, hs⟩
      simpa [decodePairs] using ih z h'
    | str vs =>
      simp only [decodePairs, bind, Except.bind]
      cases hstep : extractPair exs z k vs with
      | error e => exact ⟨e, rfl⟩
      | ok z1 =>
        have h' : ∃ p ∈ values, mapGet exs p.1 = none ∧ ∃ s, p.2 = .str s := by
          obtain ⟨p, hp, hk, s, hs⟩ := h
          rcases List.mem_cons.mp hp with rfl | hp
          · obtain ⟨r, hr⟩ := extractPair_unknown exs z k vs hk
            rw [hr] at hstep
            cases hstep
          · exact ⟨p, hp, hk, s, hs⟩
        exact ih z1 h'

/-- C5, as the code has it: for every schema the K/V decoder decodes a string
pair whose name is a wire key by calling the extractor of the kind of that
key's field on the field's slot, and it skips a pair whose value is no string;
but a string pair whose name is no wire key of the schema is not ignored: when
the pairs before it are decoded the decoder ends in a runtime fault at that
pair, and a list of pairs that holds one is never decoded. -/
theorem C5_unknown_field (L : Libs) (oTypes : List GoType) (babble : Nat → GoString)
    (intn : Nat → Nat) (N : Nat) (S : Schema) (it' : List (GoString × Nat))
    (hS : buildSchema L oTypes babble intn N = .ok S) (hit' : it'.Perm S.jsonTags) :
    ∃ exs, buildExtractors S.typ it' [] = .ok exs ∧
      (∀ (k vs : GoString) (i : Nat) (f : StructField) (z : List Value) (dest : Value),
        mapGet S.jsonTags k = some i → S.typ.get? i = some f → z.get? i = some dest →
          extractPair exs z k vs
            = (Call (typesAt f.Typ).extractor vs dest).map (fun d => z.set i d)) ∧
      (∀ (k : GoString) (rest : List (GoString × RedisValue)) (z : List Value),
        decodePairs exs ((k, .other) :: rest) z = decodePairs exs rest z) ∧
      (∀ (pre post : List (GoString × RedisValue)) (k vs : GoString) (z1 : List Value),
        k ∉ mapKeys S.jsonTags → decodePairs exs pre (New S.typ) = .ok z1 →
          ∃ r, decodeKV exs S.typ (pre ++ (k, .str vs) :: post) = .error (.panicked r)) ∧
      (∀ (values : List (GoString × RedisValue)),
        (∃ p ∈ values, p.1 ∉ mapKeys S.jsonTags ∧ ∃ s, p.2 = .str s) →
          ∃ e, decodeKV exs S.typ values = .error e) := by
  obtain ⟨hent', -, hnd', -⟩ := schema_entries L oTypes babble intn N S hS it' hit'
  have hSnd : (mapKeys S.jsonTags).Nodup := (hit'.map Prod.fst).nodup_iff.mp hnd'
  obtain ⟨exs, hexs, hin, hout⟩ := buildExtractors_spec S.typ it' []
    (fun ki hki => ⟨_, (hent' ki hki).2.2⟩) hnd'
  have hnone : ∀ k, k ∉ mapKeys S.jsonTags → mapGet exs k = none := by
    intro k hk
    rw [hout k (fun h => hk ((hit'.map Prod.fst).subset h))]
    rfl
  refine ⟨exs, hexs, ?_, fun _ _ _ => rfl, ?_, ?_⟩
  · intro k vs i f z dest hk hf hd
    have hmem : (k, i) ∈ it' := hit'.symm.subset ((mapGet_eq_some _ _ _ hSnd).mp hk)
    exact extractPair_known exs z k vs i _ dest (hin (k, i) hmem f hf) hd
  · intro pre post k vs z1 hk hpre
    obtain ⟨r, hr⟩ := extractPair_unknown exs z1 k vs (hnone k hk)
    exact ⟨r, by
      simp [decodeKV, decodePairs_append, hpre, Except.bind, decodePairs, hr, bind]⟩
  · rintro values ⟨p, hp, hk, hs⟩
    exact decodePairs_unknown exs values _ ⟨p, hp, hnone p.1 hk, hs⟩

/-- C5, witness: the statement at the sample schema. -/
theorem C5_witness :
    (buildSchema asciiLibs registered sampleBabble sampleIntn 2 = .ok sampleSchema ∧
      sampleSchema.jsonTags.Perm sampleSchema.jsonTags) ∧
    ∃ exs, buildExtractors sampleSchema.typ sampleSchema.jsonTags [] = .ok exs ∧
      (∀ (k vs : GoString) (i : Nat) (f : StructField) (z : List Value) (dest : Value),
        mapGet sampleSchema.jsonTags k = some i → sampleSchema.typ.get? i = some f →
        z.get? i = some dest →
          extractPair exs z k vs
            = (Call (typesAt f.Typ).extractor vs dest).map (fun d => z.set i d)) ∧
      (∀ (k : GoString) (rest : List (GoString × RedisValue)) (z : List Value),
        decodePairs exs ((k, .other) :: rest) z = decodePairs exs rest z) ∧
      (∀ (pre post : List (GoString × RedisValue)) (k vs : GoString) (z1 : List Value),
        k ∉ mapKeys sampleSchema.jsonTags → decodePairs exs pre (New sampleSchema.typ) = .ok z1 →
          ∃ r, decodeKV exs sampleSchema.typ (pre ++ (k, .str vs) :: post)
            = .error (.panicked r)) ∧
      (∀ (values : List (GoString × RedisValue)),
        (∃ p ∈ values, p.1 ∉ mapKeys sampleSchema.jsonTags ∧ ∃ s, p.2 = .str s) →
          ∃ e, decodeKV exs sampleSchema.typ values = .error e) :=
  ⟨⟨sampleSchema_built, List.Perm.refl _⟩,
    C5_unknown_field asciiLibs registered sampleBabble sampleIntn 2 sampleSchema
      sampleSchema.jsonTags sampleSchema_built (List.Perm.refl _)⟩

/-- C5, counterexample: against the sample schema a message with the pairs
of the sample record and one more pair, named gamma, is not decoded: the
decoder ends in the panic of a call on the zero `reflect.Value`; without the
pair gamma the message is decoded. -/
theorem C5_counterexample :
    (buildExtractors sampleSchema.typ sampleSchema.jsonTags []).bind
        (fun exs => decodeKV exs sampleSchema.typ
          [(ascii "alpha", .str (ascii "42")), (ascii "gamma", .str (ascii "7")),
            (ascii "beta", .str (ascii "f47ac10b-58cc-4372-a567-0e02b2c3d479"))])
      = .error (.panicked "reflect: call of reflect.Value.Call on zero Value") ∧
    (buildExtractors sampleSchema.typ sampleSchema.jsonTags []).bind
        (fun exs => decodeKV exs sampleSchema.typ
          [(ascii "alpha", .str (ascii "42")),
            (ascii "beta", .str (ascii "f47ac10b-58cc-4372-a567-0e02b2c3d479"))])
      = .ok [.uint16 42, .string (ascii "f47ac10b-58cc-4372-a567-0e02b2c3d479")] := by
  decide

/-! ## The JSON round trip -/

theorem storeValue_roundtrip (t : GoType) (v dest : Value) (hv : wellGenerated t v)
    (hd : TypeOf dest = t) :
    ∃ d, storeValue (marshalValue v) dest = .ok d ∧ TypeOf d = t ∧ equalValues d v = true := by
  cases t <;> cases v <;> simp only [wellGenerated] at hv <;> cases dest <;>
    simp only [TypeOf, reduceCtorEq] at hd
  · rename_i s s0
    exact ⟨.string s, rfl, rfl, by simp [equalValues]⟩
  · rename_i n n0
    have hn : n < 2 ^ 64 := lt_trans hv (by norm_num)
    obtain ⟨hne, hdig, hval⟩ := FormatUint_spec n hn
    have hp := ParseUint_digits (FormatUint n) hne hdig (by rw [hval]; exact hn)
    rw [hval] at hp
    have hlt : ¬ n ≥ 2 ^ 16 := by
      norm_num
      exact hv
    refine ⟨.uint16 n, ?_, rfl, by simp [equalValues]⟩
    simp only [marshalValue, storeValue, hp, Option.isSome_none, Bool.false_eq_true, false_or,
      hlt, if_false]
  · rename_i u u0
    refine ⟨.UUID u, ?_, rfl, by simp [equalValues]⟩
    simp [marshalValue, storeValue, UUID_UnmarshalText, ParseBytes_String u hv.1 hv.2.1]

theorem decodeMembers_roundtrip (L : Libs) (typ : List StructField) (idx : GoString → Nat)
    (members : List (GoString × JSONValue)) (z : List Value)
    (hmem : ∀ m ∈ members, ∃ f v, m.2 = marshalValue v ∧ jsonField L typ m.1 = some (idx m.1) ∧
      typ.get? (idx m.1) = some f ∧ wellGenerated f.Typ v)
    (hnd : (members.map (fun m => idx m.1)).Nodup)
    (hz : z.map TypeOf = typ.map (fun f => f.Typ)) :
    ∃ z', decodeMembers L typ members z none = (z', none) ∧
      z'.map TypeOf = typ.map (fun f => f.Typ) ∧
      (∀ m ∈ members, ∀ f v, m.2 = marshalValue v → typ.get? (idx m.1) = some f →
        wellGenerated f.Typ v → ∃ d, z'.get? (idx m.1) = some d ∧ equalValues d v = true) ∧
      ∀ i, i ∉ members.map (fun m => idx m.1) → z'.get? i = z.get? i := by
  induction members generalizing z with
  | nil => exact ⟨z, rfl, hz, by simp, fun _ _ => rfl⟩
  | cons m members ih =>
    obtain ⟨key, jv⟩ := m
    obtain ⟨f, v, hjv, hfield, hf, hv⟩ := hmem (key, jv) (List.mem_cons_self _ _)
    simp only at hjv hfield hf
    subst hjv
    simp only [List.map_cons, List.nodup_cons] at hnd
    obtain ⟨dest, hdest, htd⟩ := conforms_get typ z hz (idx key) f hf
    have hlt : idx key < z.length := by
      rw [List.get?_eq_some] at hdest
      exact hdest.1
    have hgetD : z.getD (idx key) (.string []) = dest := by
      rw [List.get?_eq_getElem?] at hdest
      simp [List.getD, hdest]
    obtain ⟨d, hstore, htd', heq⟩ := storeValue_roundtrip f.Typ v dest hv htd
    have hz1 := conforms_set typ z hz (idx key) f hf d htd'
    obtain ⟨z', hdec, hz', hin, hout⟩ := ih (z.set (idx key) d)
      (fun m h => hmem m (List.mem_cons_of_mem _ h)) hnd.2 hz1
    refine ⟨z', by simp only [decodeMembers, hfield, hgetD, hstore, hdec], hz', ?_, ?_⟩
    · intro m hm f' v' hjv' hf' hv'
      rcases List.mem_cons.mp hm with rfl | hm
      · simp only at hjv' hf'
        rw [hf] at hf'
        cases hf'
        obtain ⟨d', hstore', -, heq'⟩ := storeValue_roundtrip f.Typ v' dest hv' htd
        rw [← hjv', hstore] at hstore'
        cases hstore'
        refine ⟨d, ?_, heq'⟩
        rw [hout (idx key) hnd.1]
        simp [List.getElem?_set_self hlt]
      · exact hin m hm f' v' hjv' hf' hv'
    · intro i hi
      simp only [List.map_cons, List.mem_cons, not_or] at hi
      rw [hout i hi.2]
      simp [List.getElem?_set_ne (fun h : idx key = i => hi.1 h.symm)]

theorem find?_unique {α : Type} (l : List α) (p : α → Bool) (a : α) (ha : a ∈ l)
    (hpa : p a = true) (huniq : ∀ b ∈ l, p b = true → b = a) : l.find? p = some a := by
  induction l with
  | nil => simp at ha
  | cons b l ih =>
    by_cases hb : p b = true
    · have := huniq b (List.mem_cons_self _ _) hb
      subst this
      simp [List.find?, hb]
    · have hne : a ≠ b := fun h => hb (h ▸ hpa)
      have ha' : a ∈ l := by
        rcases List.mem_cons.mp ha with h | h
        · exact absurd h hne
        · exact h
      simp only [List.find?, hb]
      exact ih ha' (fun c hc => huniq c (List.mem_cons_of_mem _ hc))

theorem filter_eq_singleton {α β : Type} [DecidableEq β] (g : α → β) (l : List α)
    (hnd : (l.map g).Nodup) (a : α) (ha : a ∈ l) :
    l.filter (fun x => decide (g x = g a)) = [a] := by
  induction l with
  | nil => simp at ha
  | cons b l ih =>
    simp only [List.map_cons, List.nodup_cons] at hnd
    by_cases hab : a = b
    · subst hab
      have hrest : l.filter (fun x => decide (g x = g a)) = [] := by
        rw [List.filter_eq_nil_iff]
        intro x hx
        simp only [decide_eq_true_eq]
        exact fun h => hnd.1 (List.mem_map.mpr ⟨x, hx, h⟩)
      simp [List.filter_cons, hrest]
    · have ha' : a ∈ l := by
        rcases List.mem_cons.mp ha with h | h
        · exact absurd h hab
        · exact h
      have hne : ¬ g b = g a := fun h => hnd.1 (h ▸ List.mem_map.mpr ⟨a, ha', rfl⟩)
      simp [List.filter_cons, hne, ih hnd.2 ha']

theorem jsonField_schema (L : Libs) (oTypes : List GoType) (babble : Nat → GoString)
    (intn : Nat → Nat) (N : Nat) (S : Schema) (hS : buildSchema L oTypes babble intn N = .ok S)
    (i : Nat) (hi : i < N) : jsonField L S.typ (jsonTagAt L babble i) = some i := by
  have hd := buildSchema_keys_distinct L oTypes babble intn N S hS
  have htyp := (buildSchema_spec L oTypes babble intn N S hS).1
  have hlen : S.typ.length = N := by simp [htyp]
  have hnamed : ∀ j, j < N → (S.typ.getD j ⟨[], .string, []⟩).Tag = jsonTagAt L babble j := by
    intro j hj
    have := schema_typ_get L oTypes babble intn N S hS j hj
    rw [List.get?_eq_getElem?] at this
    simp [List.getD, this, fieldAt]
  have htags : S.typ.map (fun f => f.Tag) = (List.range N).map (jsonTagAt L babble) := by
    rw [htyp, List.map_map]
    rfl
  have hnd : (S.typ.map (fun f => f.Tag)).Nodup := by
    rw [htags]
    exact List.Nodup.map_on (fun a ha b hb h => hd a b (List.mem_range.mp ha)
      (List.mem_range.mp hb) h) (List.nodup_range N)
  have hlive : (List.range S.typ.length).filter
      (fun j => (S.typ.filter (fun f => f.Tag = (S.typ.getD j ⟨[], .string, []⟩).Tag)).length = 1)
      = List.range N := by
    rw [hlen, List.filter_eq_self]
    intro j hj
    have hj' := List.mem_range.mp hj
    simp only [decide_eq_true_eq]
    have hmemj : S.typ.getD j ⟨[], .string, []⟩ ∈ S.typ := by
      have hjl : j < S.typ.length := by omega
      rw [List.getD_eq_getElem _ _ hjl]
      exact List.getElem_mem _
    rw [filter_eq_singleton (fun f => f.Tag) S.typ hnd _ hmemj]
    rfl
  have hfind : (List.range N).find?
      (fun j => decide ((S.typ.getD j ⟨[], .string, []⟩).Tag = jsonTagAt L babble i)) = some i := by
    apply find?_unique _ _ _ (List.mem_range.mpr hi)
    · exact decide_eq_true (hnamed i hi)
    · intro b hb hpb
      have hb' := List.mem_range.mp hb
      simp only [decide_eq_true_eq, hnamed b hb'] at hpb
      exact hd b i hb' hi hpb
  simp only [jsonField, hlive, hfind]

/-- C2: for every schema and every record generated from it, decoding the
JSON object that the encoder produces for the record into a fresh struct of
the schema succeeds and yields under every field a value equal to the
record's value for that field. -/
theorem C2_json_round_trip (L : Libs) (oTypes : List GoType) (babble : Nat → GoString)
    (intn : Nat → Nat) (N : Nat) (S : Schema) (it : List (GoString × Nat)) (draws : Nat → Draw)
    (R : List (GoString × Value)) (hS : buildSchema L oTypes babble intn N = .ok S)
    (hit : it.Perm S.jsonTags) (hR : genEntries S.typ it draws = .ok R) :
    ∃ item, generateItem S.typ it draws [] = .ok item ∧ item = R ∧
      ∃ z, decodeJSON L S.typ (Marshal item) = .ok z ∧
        ∀ k v, (k, v) ∈ R →
          ∃ i d, mapGet S.jsonTags k = some i ∧ z.get? i = some d ∧ equalValues d v = true := by
  obtain ⟨hent, hsnd, hnd, -⟩ := schema_entries L oTypes babble intn N S hS it hit
  have hspec := genEntries_spec S.typ it draws R hR
  have hkeys : R.map Prod.fst = it.map Prod.fst := forall₂_fst_eq hspec
  have hRnd : (R.map Prod.fst).Nodup := hkeys ▸ hnd
  have hSnd : (mapKeys S.jsonTags).Nodup := (hit.map Prod.fst).nodup_iff.mp hnd
  have hitem : assignAll [] R = R := by
    rw [assignAll_eq_append [] R hRnd (by simp [mapKeys])]
    rfl
  have hget : ∀ ki ∈ it, mapGet S.jsonTags ki.1 = some ki.2 := fun ki hki =>
    (mapGet_eq_some _ _ _ hSnd).mpr (hit.subset hki)
  have hR' : ∀ e ∈ R, ∃ i f, mapGet S.jsonTags e.1 = some i ∧ S.typ.get? i = some f ∧
      jsonField L S.typ e.1 = some i ∧ wellGenerated f.Typ e.2 := by
    intro e he
    obtain ⟨ki, hki, hk, f, d, hf, hg⟩ := forall₂_mem_left hspec e he
    obtain ⟨hlt, hkey, -⟩ := hent ki hki
    refine ⟨ki.2, f, hk ▸ hget ki hki, hf, ?_, (generator_spec _ _ _ hg).2.1⟩
    rw [hk, hkey]
    exact jsonField_schema L oTypes babble intn N S hS ki.2 hlt
  refine ⟨R, by rw [generateItem_eq S.typ it draws [] R hR, hitem], rfl, ?_⟩
  have hsort := List.perm_insertionSort (fun a b : GoString × Value => a.1 ≤ b.1) R
  let idx : GoString → Nat := fun k => (mapGet S.jsonTags k).getD 0
  let members := (R.insertionSort (fun a b => a.1 ≤ b.1)).map (fun e => (e.1, marshalValue e.2))
  have hmem : ∀ m ∈ members, ∃ f v, m.2 = marshalValue v ∧
      jsonField L S.typ m.1 = some (idx m.1) ∧ S.typ.get? (idx m.1) = some f ∧
      wellGenerated f.Typ v := by
    intro m hm
    obtain ⟨e, he, rfl⟩ := List.mem_map.mp hm
    obtain ⟨i, f, hi, hf, hjf, hw⟩ := hR' e (hsort.subset he)
    have hidx : idx e.1 = i := by simp [idx, hi]
    exact ⟨f, e.2, rfl, by simpa [hidx] using hjf, by simpa [hidx] using hf, hw⟩
  have hndm : (members.map (fun m => idx m.1)).Nodup := by
    have h1 : members.map (fun m => idx m.1)
        = ((R.insertionSort (fun a b => a.1 ≤ b.1)).map Prod.fst).map idx := by
      simp [members, Function.comp_def]
    rw [h1, ((hsort.map Prod.fst).map idx).nodup_iff, hkeys, List.map_map]
    have h3 : List.map (idx ∘ Prod.fst) it = it.map Prod.snd := by
      apply List.map_congr_left
      intro ki hki
      simp [idx, hget ki hki]
    rw [h3, hsnd.nodup_iff]
    exact List.nodup_range N
  obtain ⟨z, hz, -, hzin, -⟩ := decodeMembers_roundtrip L S.typ idx members (New S.typ) hmem hndm
    (New_conforms S.typ)
  refine ⟨z, ?_, ?_⟩
  · have hU : Unmarshal L S.typ (Marshal R) (New S.typ) = (z, none) := by
      simpa [Unmarshal, Marshal, members] using hz
    simp [decodeJSON, hU, assert, bind, Except.bind, pure, Except.pure]
  · intro k v hkv
    obtain ⟨i, f, hi, hf, -, hw⟩ := hR' (k, v) hkv
    have hidx : idx k = i := by simp [idx, hi]
    have hm : (k, marshalValue v) ∈ members :=
      List.mem_map.mpr ⟨(k, v), hsort.symm.subset hkv, rfl⟩
    obtain ⟨d, hd, heq⟩ := hzin _ hm f v rfl (by simpa [hidx] using hf) hw
    exact ⟨i, d, hi, by simpa [hidx] using hd, heq⟩

/-- C2, witness: the sample record is encoded as an object with the number
42 under alpha and a string under beta, and decoded to 42 and that string. -/
theorem C2_witness :
    (buildSchema asciiLibs registered sampleBabble sampleIntn 2 = .ok sampleSchema ∧
      sampleSchema.jsonTags.Perm sampleSchema.jsonTags ∧
      genEntries sampleSchema.typ sampleSchema.jsonTags sampleDraws = .ok sampleRecord ∧
      Marshal sampleRecord = .object [(ascii "alpha", .number (ascii "42")),
        (ascii "beta", .string (ascii "f47ac10b-58cc-4372-a567-0e02b2c3d479"))] ∧
      decodeJSON asciiLibs sampleSchema.typ (Marshal sampleRecord)
        = .ok [.uint16 42, .string (ascii "f47ac10b-58cc-4372-a567-0e02b2c3d479")]) ∧
    ∃ item, generateItem sampleSchema.typ sampleSchema.jsonTags sampleDraws [] = .ok item ∧
      item = sampleRecord ∧
      ∃ z, decodeJSON asciiLibs sampleSchema.typ (Marshal item) = .ok z ∧
        ∀ k v, (k, v) ∈ sampleRecord →
          ∃ i d, mapGet sampleSchema.jsonTags k = some i ∧ z.get? i = some d ∧
            equalValues d v = true :=
  ⟨⟨sampleSchema_built, List.Perm.refl _, by decide, by decide, by decide⟩,
    C2_json_round_trip asciiLibs registered sampleBabble sampleIntn 2 sampleSchema
      sampleSchema.jsonTags sampleDraws sampleRecord sampleSchema_built (List.Perm.refl _)
      (by decide)⟩

/-! ## The read loops -/

theorem XRead_none {α : Type} (stream : List α) (c : Nat) (h : XRead stream c = none) :
    stream.length ≤ c := by
  unfold XRead at h
  split at h
  · rename_i hnil
    rw [List.take_eq_nil_iff] at hnil
    rcases hnil with hnil | hnil
    · omega
    · rw [List.drop_eq_nil_iff] at hnil
      exact hnil
  · simp at h

theorem XRead_some {α : Type} (stream : List α) (c : Nat) (batch : List α)
    (h : XRead stream c = some batch) :
    batch = (stream.drop c).take 100 ∧ 0 < batch.length ∧ c < stream.length ∧
      stream.take (c + batch.length) = stream.take c ++ batch := by
  unfold XRead at h
  split at h
  · simp at h
  · rename_i m ms heq
    simp only [Option.some.injEq] at h
    subst h
    have hc : c < stream.length := by
      by_contra hge
      rw [List.drop_eq_nil_of_le (by omega)] at heq
      simp at heq
    refine ⟨heq.symm, by simp, hc, ?_⟩
    rw [List.take_add, ← heq]
    congr 1
    rw [List.length_take, ← List.take_take, List.take_length]

theorem totalPairs_append (a b : List (List (GoString × RedisValue))) :
    totalPairs (a ++ b) = totalPairs a + totalPairs b := by
  simp [totalPairs]

theorem totalTexts_append (a b : List (Option JSONText)) :
    totalTexts (a ++ b) = totalTexts a + totalTexts b := by
  simp [totalTexts]

theorem pairsLoop_spec (items : Nat) (exs : GoMap extractor)
    (msg : List (GoString × RedisValue)) (z : List Value) (p : Progress) (hi : p.i < items)
    (hc : p.calls = p.i) :
    (∃ p', pairsLoop items exs msg z p = .running p' ∧ p'.i = p.i + stringPairs msg ∧
        p'.i < items ∧ p'.calls = p'.i ∧ p'.cursor = p.cursor) ∨
      Run.sound items (pairsLoop items exs msg z p) := by
  induction msg generalizing z p with
  | nil => exact Or.inl ⟨p, rfl, by simp [stringPairs], hi, hc, rfl⟩
  | cons e msg ih =>
    obtain ⟨k, rv⟩ := e
    cases rv with
    | other =>
      rcases ih z p hi hc with ⟨p', h1, h2, h3, h4, h5⟩ | h
      · exact Or.inl ⟨p', by simpa [pairsLoop] using h1, by simpa [stringPairs] using h2, h3, h4,
          h5⟩
      · exact Or.inr (by simpa [pairsLoop] using h)
    | str vs =>
      cases hstep : extractPair exs z k vs with
      | error f =>
        refine Or.inr ?_
        simp only [pairsLoop, hstep, Run.sound, hc, true_and]
        exact hi
      | ok z' =>
        by_cases hlast : p.i + 1 = items
        · refine Or.inr ?_
          simp [pairsLoop, hstep, hlast, Run.sound, hc]
        · have hi' : p.i + 1 < items := by omega
          rcases ih z' { p with i := p.i + 1, calls := p.calls + 1 } hi' (by simp [hc]) with
            ⟨p', h1, h2, h3, h4, h5⟩ | h
          · refine Or.inl ⟨p', by simpa [pairsLoop, hstep, hlast] using h1, ?_, h3, h4, h5⟩
            have hsp : stringPairs ((k, RedisValue.str vs) :: msg) = stringPairs msg + 1 := by
              simp [stringPairs]
            rw [hsp]
            simp only at h2
            omega
          · exact Or.inr (by simpa [pairsLoop, hstep, hlast] using h)

theorem messagesLoopKV_spec (items : Nat) (exs : GoMap extractor) (typ : List StructField)
    (batch : List (List (GoString × RedisValue))) (p : Progress) (hi : p.i < items)
    (hc : p.calls = p.i) :
    (∃ p', messagesLoopKV items exs typ batch p = .running p' ∧
        p'.i = p.i + totalPairs batch ∧ p'.i < items ∧ p'.calls = p'.i ∧
        p'.cursor = p.cursor + batch.length) ∨
      Run.sound items (messagesLoopKV items exs typ batch p) := by
  induction batch generalizing p with
  | nil => exact Or.inl ⟨p, rfl, by simp [totalPairs], hi, hc, rfl⟩
  | cons msg batch ih =>
    rcases pairsLoop_spec items exs msg (New typ) { p with cursor := p.cursor + 1 } hi hc with
      ⟨p1, h1, h2, h3, h4, h5⟩ | h
    · rcases ih p1 h3 h4 with ⟨p', g1, g2, g3, g4, g5⟩ | g
      · refine Or.inl ⟨p', by simpa [messagesLoopKV, h1] using g1, ?_, g3, g4, ?_⟩
        · simp only [totalPairs, List.map_cons, List.sum_cons] at g2 ⊢
          simp only at h2
          omega
        · simp only [List.length_cons] at h5 ⊢
          omega
      · exact Or.inr (by simpa [messagesLoopKV, h1] using g)
    · refine Or.inr ?_
      simp only [messagesLoopKV]
      cases hr : pairsLoop items exs msg (New typ) { p with cursor := p.cursor + 1 } with
      | running q => simp [hr, Run.sound] at h
      | left q => simpa [hr] using h
      | failed q f => simpa [hr] using h

theorem readLoopKV_spec (items : Nat) (exs : GoMap extractor) (typ : List StructField)
    (stream : List (List (GoString × RedisValue))) (htotal : items ≤ totalPairs stream)
    (fuel : Nat) (p : Progress) (hi : p.i < items) (hc : p.calls = p.i)
    (hinv : p.i = totalPairs (stream.take p.cursor)) (hfuel : stream.length - p.cursor < fuel) :
    ∃ r, readLoopKV items exs typ stream fuel p = some r ∧ Run.sound items r := by
  induction fuel generalizing p with
  | zero => omega
  | succ fuel ih =>
    cases hx : XRead stream p.cursor with
    | none =>
      have hlen := XRead_none stream p.cursor hx
      rw [List.take_of_length_le hlen] at hinv
      omega
    | some batch =>
      obtain ⟨-, hpos, hlt, htake⟩ := XRead_some stream p.cursor batch hx
      rcases messagesLoopKV_spec items exs typ batch p hi hc with ⟨p', h1, h2, h3, h4, h5⟩ | h
      · have hinv' : p'.i = totalPairs (stream.take p'.cursor) := by
          rw [h5, htake, totalPairs_append, ← hinv, h2]
        obtain ⟨r, hr, hs⟩ := ih p' h3 h4 hinv' (by omega)
        exact ⟨r, by simpa [readLoopKV, hx, h1] using hr, hs⟩
      · refine ⟨messagesLoopKV items exs typ batch p, ?_, h⟩
        simp only [readLoopKV, hx]
        cases hr : messagesLoopKV items exs typ batch p with
        | running q => simp [hr, Run.sound] at h
        | left q => rfl
        | failed q f => rfl

theorem messagesLoopJSON_spec (items : Nat) (L : Libs) (typ : List StructField)
    (batch : List (Option JSONText)) (p : Progress) (hi : p.i < items) (hc : p.calls = p.i) :
    (∃ p', messagesLoopJSON items L typ batch p = .running p' ∧
        p'.i = p.i + totalTexts batch ∧ p'.i < items ∧ p'.calls = p'.i ∧
        p'.cursor = p.cursor + batch.length) ∨
      Run.sound items (messagesLoopJSON items L typ batch p) := by
  induction batch generalizing p with
  | nil => exact Or.inl ⟨p, rfl, by simp [totalTexts], hi, hc, rfl⟩
  | cons msg batch ih =>
    cases msg with
    | none =>
      rcases ih { p with cursor := p.cursor + 1 } hi hc with ⟨p', g1, g2, g3, g4, g5⟩ | g
      · refine Or.inl ⟨p', by simpa [messagesLoopJSON] using g1, by simpa [totalTexts] using g2,
          g3, g4, ?_⟩
        simp only [List.length_cons] at g5 ⊢
        omega
      · exact Or.inr (by simpa [messagesLoopJSON] using g)
    | some js =>
      cases hd : decodeJSON L typ js with
      | error f =>
        refine Or.inr ?_
        simp only [messagesLoopJSON, hd, Run.sound, hc, true_and]
        exact hi
      | ok z =>
        by_cases hlast : p.i + 1 = items
        · refine Or.inr ?_
          simp [messagesLoopJSON, hd, hlast, Run.sound, hc]
        · have hi' : p.i + 1 < items := by omega
          rcases ih { i := p.i + 1, cursor := p.cursor + 1, calls := p.calls + 1 } hi'
            (by simp [hc]) with ⟨p', g1, g2, g3, g4, g5⟩ | g
          · refine Or.inl ⟨p', by simpa [messagesLoopJSON, hd, hlast] using g1, ?_, g3, g4, ?_⟩
            · simp only [totalTexts, List.filter_cons, Option.isSome_some, if_true,
                List.length_cons] at g2 ⊢
              omega
            · simp only [List.length_cons] at g5 ⊢
              omega
          · exact Or.inr (by simpa [messagesLoopJSON, hd, hlast] using g)

theorem readLoopJSON_spec (items : Nat) (L : Libs) (typ : List StructField)
    (stream : List (Option JSONText)) (htotal : items ≤ totalTexts stream)
    (fuel : Nat) (p : Progress) (hi : p.i < items) (hc : p.calls = p.i)
    (hinv : p.i = totalTexts (stream.take p.cursor)) (hfuel : stream.length - p.cursor < fuel) :
    ∃ r, readLoopJSON items L typ stream fuel p = some r ∧ Run.sound items r := by
  induction fuel generalizing p with
  | zero => omega
  | succ fuel ih =>
    cases hx : XRead stream p.cursor with
    | none =>
      have hlen := XRead_none stream p.cursor hx
      rw [List.take_of_length_le hlen] at hinv
      omega
    | some batch =>
      obtain ⟨-, hpos, hlt, htake⟩ := XRead_some stream p.cursor batch hx
      rcases messagesLoopJSON_spec items L typ batch p hi hc with ⟨p', h1, h2, h3, h4, h5⟩ | h
      · have hinv' : p'.i = totalTexts (stream.take p'.cursor) := by
          rw [h5, htake, totalTexts_append, ← hinv, h2]
        obtain ⟨r, hr, hs⟩ := ih p' h3 h4 hinv' (by omega)
        exact ⟨r, by simpa [readLoopJSON, hx, h1] using hr, hs⟩
      · refine ⟨messagesLoopJSON items L typ batch p, ?_, h⟩
        simp only [readLoopJSON, hx]
        cases hr : messagesLoopJSON items L typ batch p with
        | running q => simp [hr, Run.sound] at h
        | left q => rfl
        | failed q f => rfl

theorem pairsLoop_cursor (items : Nat) (exs : GoMap extractor)
    (msg : List (GoString × RedisValue)) (z : List Value) (p p' : Progress)
    (h : pairsLoop items exs msg z p = .running p') : p'.cursor = p.cursor := by
  induction msg generalizing z p with
  | nil =>
    simp only [pairsLoop, Run.running.injEq] at h
    rw [h]
  | cons e msg ih =>
    obtain ⟨k, rv⟩ := e
    cases rv with
    | other => exact ih z p (by simpa [pairsLoop] using h)
    | str vs =>
      simp only [pairsLoop] at h
      cases hstep : extractPair exs z k vs with
      | error f => simp [hstep] at h
      | ok z' =>
        simp only [hstep] at h
        split at h
        · simp at h
        · have h3 := ih _ _ h
          simpa using h3

theorem messagesLoopKV_cursor (items : Nat) (exs : GoMap extractor) (typ : List StructField)
    (batch : List (List (GoString × RedisValue))) (p p' : Progress)
    (h : messagesLoopKV items exs typ batch p = .running p') :
    p'.cursor = p.cursor + batch.length := by
  induction batch generalizing p with
  | nil =>
    simp only [messagesLoopKV, Run.running.injEq] at h
    simp [h]
  | cons msg batch ih =>
    simp only [messagesLoopKV] at h
    cases hr : pairsLoop items exs msg (New typ) { p with cursor := p.cursor + 1 } with
    | running q =>
      simp only [hr] at h
      have h1 := pairsLoop_cursor items exs msg _ _ q hr
      have h2 := ih q h
      simp only [List.length_cons] at h1 ⊢
      omega
    | left q => simp [hr] at h
    | failed q f => simp [hr] at h

theorem messagesLoopJSON_cursor (items : Nat) (L : Libs) (typ : List StructField)
    (batch : List (Option JSONText)) (p p' : Progress)
    (h : messagesLoopJSON items L typ batch p = .running p') :
    p'.cursor = p.cursor + batch.length := by
  induction batch generalizing p with
  | nil =>
    simp only [messagesLoopJSON, Run.running.injEq] at h
    simp [h]
  | cons msg batch ih =>
    cases msg with
    | none =>
      have := ih _ (by simpa [messagesLoopJSON] using h)
      simp only [List.length_cons] at this ⊢
      omega
    | some js =>
      simp only [messagesLoopJSON] at h
      cases hd : decodeJSON L typ js with
      | error f => simp [hd] at h
      | ok z =>
        simp only [hd] at h
        split at h
        · simp at h
        · have := ih _ h
          simp only [List.length_cons] at this ⊢
          omega

/-- The K/V read loop ends for every stream: a call of `XREAD` that is not
the last one consumes a message. -/
theorem readLoopKV_total (items : Nat) (exs : GoMap extractor) (typ : List StructField)
    (stream : List (List (GoString × RedisValue))) (fuel : Nat) (p : Progress)
    (hfuel : stream.length - p.cursor < fuel) :
    ∃ r, readLoopKV items exs typ stream fuel p = some r := by
  induction fuel generalizing p with
  | zero => omega
  | succ fuel ih =>
    cases hx : XRead stream p.cursor with
    | none => exact ⟨.left p, by simp [readLoopKV, hx]⟩
    | some batch =>
      obtain ⟨-, hpos, hlt, -⟩ := XRead_some stream p.cursor batch hx
      cases hr : messagesLoopKV items exs typ batch p with
      | running q =>
        have hq := messagesLoopKV_cursor items exs typ batch p q hr
        obtain ⟨r, h⟩ := ih q (by omega)
        exact ⟨r, by simpa [readLoopKV, hx, hr] using h⟩
      | left q => exact ⟨.left q, by simp [readLoopKV, hx, hr]⟩
      | failed q f => exact ⟨.failed q f, by simp [readLoopKV, hx, hr]⟩

/-- The JSON read loop ends for every stream. -/
theorem readLoopJSON_total (items : Nat) (L : Libs) (typ : List StructField)
    (stream : List (Option JSONText)) (fuel : Nat) (p : Progress)
    (hfuel : stream.length - p.cursor < fuel) :
    ∃ r, readLoopJSON items L typ stream fuel p = some r := by
  induction fuel generalizing p with
  | zero => omega
  | succ fuel ih =>
    cases hx : XRead stream p.cursor with
    | none => exact ⟨.left p, by simp [readLoopJSON, hx]⟩
    | some batch =>
      obtain ⟨-, hpos, hlt, -⟩ := XRead_some stream p.cursor batch hx
      cases hr : messagesLoopJSON items L typ batch p with
      | running q =>
        have hq := messagesLoopJSON_cursor items L typ batch p q hr
        obtain ⟨r, h⟩ := ih q (by omega)
        exact ⟨r, by simpa [readLoopJSON, hx, hr] using h⟩
      | left q => exact ⟨.left q, by simp [readLoopJSON, hx, hr]⟩
      | failed q f => exact ⟨.failed q f, by simp [readLoopJSON, hx, hr]⟩

/-- Both read phases return for every stream and every `items`. -/
theorem read_phases_total (items : Nat) (exs : GoMap extractor) (L : Libs)
    (typ : List StructField) (kv : List (List (GoString × RedisValue)))
    (js : List (Option JSONText)) :
    (∃ r, readKV items exs typ kv = some r) ∧ ∃ r, readJSON items L typ js = some r :=
  ⟨readLoopKV_total items exs typ kv _ _ (by simp),
    readLoopJSON_total items L typ js _ _ (by simp)⟩

/-! ## Claims on the read loops -/

/-- C10, as the code has it: the K/V read loop advances its counter once for
every pair with a string value that it hands to an extractor and is left as
soon as the counter equals `items`, and the JSON read loop advances its
counter once for every message it decodes and is left likewise; so for every
`items` of at least 1 and every stream that holds at least `items` string
pairs (K/V) or at least `items` messages with a JSON string (JSON), the loop
makes exactly `items` decoding calls, unless one of these calls ends the
process with a decode error or fault: then that call was the last of at most
`items`. -/
theorem C10_read_loops_count (items : Nat) (hitems : 1 ≤ items) :
    (∀ (exs : GoMap extractor) (typ : List StructField)
      (stream : List (List (GoString × RedisValue))), items ≤ totalPairs stream →
        ∃ r, readKV items exs typ stream = some r ∧ Run.sound items r) ∧
    (∀ (L : Libs) (typ : List StructField) (stream : List (Option JSONText)),
      items ≤ totalTexts stream →
        ∃ r, readJSON items L typ stream = some r ∧ Run.sound items r) := by
  refine ⟨?_, ?_⟩
  · intro exs typ stream htotal
    exact readLoopKV_spec items exs typ stream htotal (stream.length + 1) ⟨0, 0, 0⟩
      (by simpa using hitems) rfl (by simp [totalPairs]) (by simp)
  · intro L typ stream htotal
    exact readLoopJSON_spec items L typ stream htotal (stream.length + 1) ⟨0, 0, 0⟩
      (by simpa using hitems) rfl (by simp [totalTexts]) (by simp)

/-- C10, witness: with `items` at 3 and three messages of two string pairs
each, the K/V loop is left after three extractor calls, inside the second
message, while the JSON loop decodes three messages. -/
theorem C10_witness :
    (1 ≤ 3 ∧ totalPairs sampleStreamKV = 6 ∧ totalTexts sampleStreamJSON = 3 ∧
      (buildExtractors sampleSchema.typ sampleSchema.jsonTags []).toOption.map
          (fun exs => readKV 3 exs sampleSchema.typ sampleStreamKV)
        = some (some (.left ⟨3, 2, 3⟩)) ∧
      readJSON 3 asciiLibs sampleSchema.typ sampleStreamJSON = some (.left ⟨3, 3, 3⟩)) ∧
    (∀ (exs : GoMap extractor) (typ : List StructField)
      (stream : List (List (GoString × RedisValue))), 3 ≤ totalPairs stream →
        ∃ r, readKV 3 exs typ stream = some r ∧ Run.sound 3 r) ∧
    (∀ (L : Libs) (typ : List StructField) (stream : List (Option JSONText)),
      3 ≤ totalTexts stream →
        ∃ r, readJSON 3 L typ stream = some r ∧ Run.sound 3 r) :=
  ⟨⟨by decide, by decide, by decide, by decide, by decide⟩,
    C10_read_loops_count 3 (by decide)⟩

/-- C10, counterexample: a stream with three string pairs in two messages
and `items` at 2: the first extractor call, for the value x of the `uint16`
field alpha, ends the process, so one extractor call is made, not two; and a
JSON stream of three messages whose first is no valid JSON ends the process
in the first decoding call. -/
theorem C10_counterexample :
    totalPairs badStreamKV = 3 ∧
      (buildExtractors sampleSchema.typ sampleSchema.jsonTags []).toOption.map
          (fun exs => readKV 2 exs sampleSchema.typ badStreamKV)
        = some (some (.failed ⟨0, 1, 1⟩
            (.fatal "Couldn't parse uInt" (ascii "x") "invalid syntax"))) ∧
      totalTexts badStreamJSON = 3 ∧
      readJSON 2 asciiLibs sampleSchema.typ badStreamJSON
        = some (.failed ⟨0, 1, 1⟩ (.fatal "Couldn't decode JSON" [] "invalid character")) := by
  decide

end Rskvj
